import Mathlib

/-!
Verification of the `rads` logical-clock and Peterson-lock primitives.

The definitions below are a shallow embedding of the Rust sources:

* `src/order/vector_clock.rs` — `VectorClock` (owner index `i`, counter list
  `clk`), its `new` / `extend` / `merge` operations and its `PartialOrd`
  comparison (a `try_fold` over the zipped counter lists).
* `src/order/matrix_clock.rs` — `MatrixClock` (owner index `i`, matrix `clk`),
  its operations, its `PartialOrd` comparison over the row-major flattening,
  the causal-stability test `MatrixClock.gc`, and `GCProcess.gc` which drains
  the stable prefix of the buffered event log using `partition_point`.
* `src/sync/peterson.rs` — the Peterson lock: three shared boolean flags and
  the two role state machines, embedded as an interleaving transition system
  (all flag accesses in the source are `SeqCst`, so each access is one atomic
  step of the interleaving).

Machine integers (`usize`) are modelled as `Nat`: the counters only ever grow
by 1 per event, so overflow is not reachable in any scenario considered here
and the Rust build would abort on overflow rather than wrap.
-/

/-- One step of the accumulator automaton used by both `PartialOrd`
implementations: Rust's
`match (acc, s.cmp(t)) { (Less, Greater) | (Greater, Less) => None, (_, Less) | (Less, _) => Some(Less), (_, Greater) | (Greater, _) => Some(Greater), (Equal, Equal) => Some(Equal) }`
with the arms tried in order. -/
def cmpAcc (acc : Ordering) (c : Ordering) : Option Ordering :=
  match acc, c with
  | .lt, .gt => none
  | .gt, .lt => none
  | _, .lt => some .lt
  | .lt, _ => some .lt
  | _, .gt => some .gt
  | .gt, _ => some .gt
  | .eq, .eq => some .eq

/-- Rust's `Iterator::try_fold` over an accumulator in `Option Ordering`,
specialised to a list of counter pairs. -/
def tryFoldCmp : List (Nat × Nat) → Ordering → Option Ordering
  | [], acc => some acc
  | p :: ps, acc =>
    match cmpAcc acc (compare p.1 p.2) with
    | none => none
    | some acc2 => tryFoldCmp ps acc2

/-- The comparison fold both clock types run over their zipped components,
started from `Equal` as in the source. -/
def cmpFold (l : List (Nat × Nat)) : Option Ordering :=
  tryFoldCmp l .eq

/-- Modelled from the spec: `pairwise_max` lives in `src/order/mod.rs`, which
is not part of the sources here; the spec describes it as the
"elementwise-maximum combinator over two equal-length numeric sequences". -/
def pairwise_max (u v : List Nat) : List Nat :=
  List.zipWith max u v

/-- `VectorClock` from `src/order/vector_clock.rs`: owner index `i` and one
counter per process. -/
structure VectorClock where
  i : Nat
  clk : List Nat
deriving DecidableEq, Repr

/-- `VectorClock::new(i, n_procs)`: the constructor asserts `i < n_procs`
(a panic is modelled as `none`) and returns the unit vector at `i`. -/
def VectorClock.new (i n_procs : Nat) : Option VectorClock :=
  if i < n_procs then
    some ⟨i, (List.range n_procs).map (fun j => if i = j then 1 else 0)⟩
  else
    none

/-- `VectorClock::extend`: a copy with counter `i` incremented. -/
def VectorClock.extend (c : VectorClock) : VectorClock :=
  ⟨c.i, c.clk.set c.i (c.clk.getD c.i 0 + 1)⟩

/-- `VectorClock::merge`: elementwise maximum of the two counter lists, then
counter `i` incremented by 1. (The source's `debug_assert`s do not change the
returned value and are not modelled.) -/
def VectorClock.merge (a b : VectorClock) : VectorClock :=
  ⟨a.i, (pairwise_max a.clk b.clk).enum.map (fun p => p.2 + if p.1 = a.i then 1 else 0)⟩

/-- `VectorClock::partial_cmp`: `None` on length mismatch, otherwise the
`try_fold` comparison over the zipped counter lists. -/
def VectorClock.cmp (a b : VectorClock) : Option Ordering :=
  if a.clk.length ≠ b.clk.length then none
  else cmpFold (a.clk.zip b.clk)

/-- `MatrixClock` from `src/order/matrix_clock.rs`: owner index `i` and an
`n × n` matrix of counters (row `k` = the owner's knowledge of process `k`'s
vector clock). `#[derive(Default)]` in the source gives `i = 0`, empty matrix. -/
structure MatrixClock where
  i : Nat
  clk : List (List Nat)
deriving DecidableEq, Repr, Inhabited

/-- `MatrixClock::new(i, n_procs)`: row `i` is the unit vector at `i`, every
other row is all zeros. Note that, unlike `VectorClock::new`, the source has
no assertion on `i`, so the constructor is total. -/
def MatrixClock.new (i n_procs : Nat) : MatrixClock :=
  ⟨i, (List.range n_procs).map (fun j =>
    if i = j then (List.range n_procs).map (fun k => if i = k then 1 else 0)
    else List.replicate n_procs 0)⟩

/-- `MatrixClock::extend`: a copy with the diagonal entry `[i][i]` incremented. -/
def MatrixClock.extend (c : MatrixClock) : MatrixClock :=
  ⟨c.i, c.clk.set c.i ((c.clk.getD c.i []).set c.i ((c.clk.getD c.i []).getD c.i 0 + 1))⟩

/-- The columnwise maximum `c.clk.iter().fold(0, |acc, vi| vi[col].max(acc))`
used by `MatrixClock::merge` to recompute row `i`. -/
def colMax (m : List (List Nat)) (col : Nat) : Nat :=
  m.foldl (fun acc vi => max (vi.getD col 0) acc) 0

/-- `MatrixClock::merge`: elementwise maximum of every row pair, then row `i`
is recomputed as the columnwise maximum over all rows of the merged matrix
(a fold starting from 0, as in the source), and finally `[i][i]` is
incremented by 1. -/
def MatrixClock.merge (a b : MatrixClock) : MatrixClock :=
  let m := List.zipWith pairwise_max a.clk b.clk
  let rowi := (List.range a.clk.length).map (colMax m)
  ⟨a.i, m.set a.i (rowi.set a.i (rowi.getD a.i 0 + 1))⟩

/-- `MatrixClock::partial_cmp`: `None` when the row counts differ, otherwise
the `try_fold` comparison over the zipped row-major flattenings. -/
def MatrixClock.cmp (a b : MatrixClock) : Option Ordering :=
  if a.clk.length ≠ b.clk.length then none
  else cmpFold (a.clk.flatten.zip b.clk.flatten)

/-- `GCClock::gc` for `MatrixClock` (the causal-stability test): with
`seq = self.clk[i][i]`, checks that every row `vi` of `latest` has
`vi[self.i] ≥ seq`. -/
def MatrixClock.gc (c latest : MatrixClock) : Bool :=
  let seq := (c.clk.getD c.i []).getD c.i 0
  latest.clk.all (fun vi => decide (seq ≤ vi.getD c.i 0))

/-- Squareness of a matrix clock: `n` rows, each of length `n`. Every clock
produced by `MatrixClock::new` with a valid index, and preserved by
`extend`/`merge`, has this shape. -/
def WFm (c : MatrixClock) (n : Nat) : Prop :=
  c.clk.length = n ∧ ∀ row ∈ c.clk, row.length = n

instance (c : MatrixClock) (n : Nat) : Decidable (WFm c n) := by
  unfold WFm; infer_instance

/-- Fuel-indexed binary search underlying `partition_point`:
`slice::partition_point(pred)` returns the index of the first element of the
second partition, computed by binary search; on a slice that is not
partitioned by `pred` the result is documented as unspecified. Fuel
`hi - lo ≤ fuel` always suffices. -/
def ppAux (pred : MatrixClock → Bool) (xs : List MatrixClock) :
    Nat → Nat → Nat → Nat
  | 0, lo, _ => lo
  | fuel + 1, lo, hi =>
    if lo < hi then
      let mid := (lo + hi) / 2
      if pred (xs.getD mid default) then ppAux pred xs fuel (mid + 1) hi
      else ppAux pred xs fuel lo mid
    else lo

/-- `VecDeque::partition_point` on the logical contents. -/
def partitionPoint (pred : MatrixClock → Bool) (xs : List MatrixClock) : Nat :=
  ppAux pred xs xs.length 0 xs.length

/-- Model of Rust std's `VecDeque` ring buffer as `GCProcess` uses it:
`cap` is the allocated capacity, `head` the physical index of the first
element, and `buf` the logical contents (oldest first). Element `j` of `buf`
lives at physical slot `(head + j) % cap`. -/
structure RingDeque (α : Type) where
  cap : Nat
  head : Nat
  buf : List α
deriving DecidableEq, Repr

/-- `VecDeque::push_back`: appends at slot `(head + len) % cap`; when the
buffer is full it grows (doubling, with a minimum first allocation of 4 slots
for elements of this size). Growth relocates nothing when the contents are
contiguous from slot `head` onward, which is the only growth case exercised
here (`head = 0`). -/
def RingDeque.pushBack {α : Type} (d : RingDeque α) (x : α) : RingDeque α :=
  if d.buf.length < d.cap then { d with buf := d.buf ++ [x] }
  else { d with cap := max (2 * d.cap) 4, buf := d.buf ++ [x] }

/-- `VecDeque::drain(..k)` on a front range: drops the first `k` logical
elements and advances `head` past them. -/
def RingDeque.drainFront {α : Type} (d : RingDeque α) (k : Nat) : RingDeque α :=
  { d with head := (d.head + k) % d.cap, buf := d.buf.drop k }

/-- The first slice of `VecDeque::as_slices`: the contiguous run of elements
from slot `head` up to the end of the allocation — `min len (cap - head)`
elements. The remaining elements (wrapped around to the start of the
allocation) are in the second slice. -/
def RingDeque.frontSlice {α : Type} (d : RingDeque α) : List α :=
  d.buf.take (d.cap - d.head)

/-- An empty `VecDeque::new()`: no allocation yet. -/
def RingDeque.empty (α : Type) : RingDeque α := ⟨0, 0, []⟩

/-- `GCProcess` from `src/order/matrix_clock.rs`: process index, process
count, and the buffered event log (a `VecDeque<MatrixClock>`). -/
structure GCProcess where
  i : Nat
  n_procs : Nat
  events : RingDeque MatrixClock
deriving Repr

/-- `GCProcess::new`. -/
def GCProcess.new (i n_procs : Nat) : GCProcess :=
  ⟨i, n_procs, RingDeque.empty MatrixClock⟩

/-- `HasEvents::push_event` for `GCProcess`: `events.push_back(e)`. -/
def GCProcess.pushEvent (p : GCProcess) (e : MatrixClock) : GCProcess :=
  { p with events := p.events.pushBack e }

/-- `GCProcess::gc`: if the log is empty return the empty vector; otherwise
let `latest` be the most recently appended event, find the partition point of
the stability predicate, and drain (returning, oldest first) that prefix. -/
def GCProcess.gc (p : GCProcess) : List MatrixClock × GCProcess :=
  match p.events.buf.getLast? with
  | none => ([], p)
  | some latest =>
    let k := partitionPoint (fun c => c.gc latest) p.events.buf
    (p.events.buf.take k, { p with events := p.events.drainFront k })

/-- `HasEvents::events` for `GCProcess`: `events.as_slices().0` — only the
first (contiguous) slice of the ring buffer. -/
def GCProcess.eventsFn (p : GCProcess) : List MatrixClock :=
  p.events.frontSlice

/-- The shared `Peterson` state from `src/sync/peterson.rs`: three atomic
booleans. All accesses in the source are `SeqCst`, so a single interleaving
of individual accesses is a faithful semantics. -/
structure Peterson where
  a_wants : Bool
  b_wants : Bool
  a_turn : Bool
deriving DecidableEq, Repr, Fintype

/-- `Peterson::default()`: all three flags false. -/
def Peterson.default : Peterson := ⟨false, false, false⟩

/-- `PetersonA::release`: `a_wants.store(false, SeqCst)`. -/
def Peterson.releaseA (p : Peterson) : Peterson := { p with a_wants := false }

/-- `PetersonB::release`: `b_wants.store(false, SeqCst)`. -/
def Peterson.releaseB (p : Peterson) : Peterson := { p with b_wants := false }

/-- Control location of one role. `acquire` performs two stores and then
spins, so a role is at one of: `idle` (before/after a critical section),
`setT` (its wants flag is set, the turn store is next), `wait` (both stores
done, spinning on the exit condition), `held` (acquire returned, release not
yet called). -/
inductive PC where
  | idle
  | setT
  | wait
  | held
deriving DecidableEq, Repr, Fintype

/-- Global state of the two-thread Peterson program: each role's control
location plus the shared flags. -/
structure PState where
  pcA : PC
  pcB : PC
  fl : Peterson
deriving DecidableEq, Repr, Fintype

/-- The initial state: both roles idle over `Peterson::default()`. -/
def PState.init : PState := ⟨.idle, .idle, Peterson.default⟩

/-- Role A runs one atomic access of `PetersonA::acquire`:
`a_wants.store(true)` happens on the voluntary `beginA` step, so from `setT`
the next access is `a_turn.store(false)`, and from `wait` one evaluation of
`b_wants.load() && !a_turn.load()` either spins (no state change) or exits
the loop. At `idle` and `held` the acquire code is not running, so a
scheduled quantum changes nothing. -/
def aFn (s : PState) : PState :=
  match s.pcA with
  | .idle => s
  | .setT => { s with pcA := .wait, fl := { s.fl with a_turn := false } }
  | .wait => if s.fl.b_wants && !s.fl.a_turn then s else { s with pcA := .held }
  | .held => s

/-- Role B runs one atomic access of `PetersonB::acquire`: from `setT` the
next access is `a_turn.store(true)`, and from `wait` one evaluation of
`a_wants.load() && a_turn.load()` either spins or exits. -/
def bFn (s : PState) : PState :=
  match s.pcB with
  | .idle => s
  | .setT => { s with pcB := .wait, fl := { s.fl with a_turn := true } }
  | .wait => if s.fl.a_wants && s.fl.a_turn then s else { s with pcB := .held }
  | .held => s

/-- Role A voluntarily starts `acquire` (the first store,
`a_wants.store(true, SeqCst)`). Only legal from `idle`: the roles alternate
`acquire`/`release`, re-acquiring while held being documented UB. -/
def beginA (s : PState) : PState :=
  { s with pcA := .setT, fl := { s.fl with a_wants := true } }

/-- Role B voluntarily starts `acquire`. -/
def beginB (s : PState) : PState :=
  { s with pcB := .setT, fl := { s.fl with b_wants := true } }

/-- Role A voluntarily calls `release` (only legal from `held`). -/
def relA (s : PState) : PState :=
  { s with pcA := .idle, fl := s.fl.releaseA }

/-- Role B voluntarily calls `release`. -/
def relB (s : PState) : PState :=
  { s with pcB := .idle, fl := s.fl.releaseB }

/-- All states reachable in one step from `s`: either role runs one atomic
access of the code it is currently in, or a role at `idle`/`held`
voluntarily calls `acquire`/`release`. -/
def nexts (s : PState) : List PState :=
  [aFn s, bFn s]
    ++ (if s.pcA = .idle then [beginA s] else [])
    ++ (if s.pcA = .held then [relA s] else [])
    ++ (if s.pcB = .idle then [beginB s] else [])
    ++ (if s.pcB = .held then [relB s] else [])

/-- The interleaving step relation. -/
def PStep (s s2 : PState) : Prop := s2 ∈ nexts s

instance (s s2 : PState) : Decidable (PStep s s2) := by
  unfold PStep; infer_instance

/-- States reachable from the initial state under any interleaving in which
each role alternates `acquire` and `release`. -/
inductive PReach : PState → Prop where
  | init : PReach PState.init
  | step {s s2 : PState} : PReach s → PStep s s2 → PReach s2

/-- The inductive invariant of the Peterson system: each wants flag mirrors
whether its role is mid-protocol, and a role in its critical section leaves
the turn flag pointing at a waiting rival. -/
def Pinv (s : PState) : Bool :=
  (s.fl.a_wants = decide (s.pcA ≠ .idle)) &&
  (s.fl.b_wants = decide (s.pcB ≠ .idle)) &&
  (!(decide (s.pcA = .held)) || (!(decide (s.pcB = .held)) &&
      (!(decide (s.pcB = .wait)) || s.fl.a_turn))) &&
  (!(decide (s.pcB = .held)) || (!(decide (s.pcA = .held)) &&
      (!(decide (s.pcA = .wait)) || !s.fl.a_turn)))

/-- The diagonal sequence number of a matrix-clock event: `event[i][i]`,
the owner's count of its own events. -/
def MatrixClock.diag (c : MatrixClock) : Nat :=
  (c.clk.getD c.i []).getD c.i 0

/-- One event of a process's log is derived from the previous one by a local
`extend` or by a `merge` with some received (square) clock. -/
def MDeriv (n : Nat) (c c2 : MatrixClock) : Prop :=
  c2 = c.extend ∨ ∃ o : MatrixClock, WFm o n ∧ c2 = c.merge o

/-- The events of the documented GC relay scenario with `n = 2` processes:
process 0 performs three local events and a send (diagonal sequence numbers
1..4) and then receives the token back from process 1 (whose send event is
`merge(merge(new(1,2), e4).extend stages`), giving the fifth event
`[[5,3],[4,3]]`; afterwards process 0 performs four more local events. -/
def c7evs : List MatrixClock :=
  [⟨0, [[1, 0], [0, 0]]⟩, ⟨0, [[2, 0], [0, 0]]⟩, ⟨0, [[3, 0], [0, 0]]⟩,
   ⟨0, [[4, 0], [0, 0]]⟩, ⟨0, [[5, 3], [4, 3]]⟩, ⟨0, [[6, 3], [4, 3]]⟩,
   ⟨0, [[7, 3], [4, 3]]⟩, ⟨0, [[8, 3], [4, 3]]⟩, ⟨0, [[9, 3], [4, 3]]⟩]

/-- Process 0 after appending its first five events (the buffer grows
0 → 4 → 8 slots while contiguous). -/
def c7mid : GCProcess :=
  (c7evs.take 5).foldl GCProcess.pushEvent (GCProcess.new 0 2)

/-- Process 0 after `gc()` (which evicts the four stable events, advancing
the ring head to slot 4) and four further appends, which wrap around the
8-slot ring. -/
def c7final : GCProcess :=
  (c7evs.drop 5).foldl GCProcess.pushEvent c7mid.gc.2

/-- A concrete fair execution of the Peterson system used as a witness:
B acquires and briefly holds the lock while A's acquire is pending, B
releases, A acquires, holds, and releases; from step 8 on the execution
stutters in the all-idle state. -/
def c5states : List PState :=
  [⟨.idle, .idle, ⟨false, false, false⟩⟩,
   ⟨.idle, .setT, ⟨false, true, false⟩⟩,
   ⟨.idle, .wait, ⟨false, true, true⟩⟩,
   ⟨.setT, .wait, ⟨true, true, true⟩⟩,
   ⟨.wait, .wait, ⟨true, true, false⟩⟩,
   ⟨.wait, .held, ⟨true, true, false⟩⟩,
   ⟨.wait, .idle, ⟨true, false, false⟩⟩,
   ⟨.held, .idle, ⟨true, false, false⟩⟩]

/-- The witness trace as a function of time. -/
def c5tr (t : Nat) : PState :=
  if t < 8 then c5states.getD t ⟨.idle, .idle, ⟨false, false, false⟩⟩
  else ⟨.idle, .idle, ⟨false, false, false⟩⟩

/-!
### Lemmas about the comparison fold
-/

theorem tryFoldCmp_lt (l : List (Nat × Nat)) :
    tryFoldCmp l .lt = if ∀ p ∈ l, p.1 ≤ p.2 then some .lt else none := by
  induction l with
  | nil => simp [tryFoldCmp]
  | cons p ps ih =>
    rcases Nat.lt_trichotomy p.1 p.2 with h1 | h1 | h1
    · have hc : compare p.1 p.2 = .lt := Nat.compare_eq_lt.2 h1
      have h2 : p.1 ≤ p.2 := Nat.le_of_lt h1
      simp only [tryFoldCmp, hc, cmpAcc, ih, List.forall_mem_cons]
      simp only [h2, true_and]
    · have hc : compare p.1 p.2 = .eq := Nat.compare_eq_eq.2 h1
      have h2 : p.1 ≤ p.2 := Nat.le_of_eq h1
      simp only [tryFoldCmp, hc, cmpAcc, ih, List.forall_mem_cons]
      simp only [h2, true_and]
    · have hc : compare p.1 p.2 = .gt := Nat.compare_eq_gt.2 h1
      have hn : ¬ p.1 ≤ p.2 := Nat.not_le.2 h1
      simp only [tryFoldCmp, hc, cmpAcc, List.forall_mem_cons]
      rw [if_neg (fun h => hn h.1)]

theorem tryFoldCmp_gt (l : List (Nat × Nat)) :
    tryFoldCmp l .gt = if ∀ p ∈ l, p.2 ≤ p.1 then some .gt else none := by
  induction l with
  | nil => simp [tryFoldCmp]
  | cons p ps ih =>
    rcases Nat.lt_trichotomy p.1 p.2 with h1 | h1 | h1
    · have hc : compare p.1 p.2 = .lt := Nat.compare_eq_lt.2 h1
      have hn : ¬ p.2 ≤ p.1 := Nat.not_le.2 h1
      simp only [tryFoldCmp, hc, cmpAcc, List.forall_mem_cons]
      rw [if_neg (fun h => hn h.1)]
    · have hc : compare p.1 p.2 = .eq := Nat.compare_eq_eq.2 h1
      have h2 : p.2 ≤ p.1 := Nat.le_of_eq h1.symm
      simp only [tryFoldCmp, hc, cmpAcc, ih, List.forall_mem_cons]
      simp only [h2, true_and]
    · have hc : compare p.1 p.2 = .gt := Nat.compare_eq_gt.2 h1
      have h2 : p.2 ≤ p.1 := Nat.le_of_lt h1
      simp only [tryFoldCmp, hc, cmpAcc, ih, List.forall_mem_cons]
      simp only [h2, true_and]

theorem cmpFold_eq_some_eq (l : List (Nat × Nat)) :
    cmpFold l = some .eq ↔ ∀ p ∈ l, p.1 = p.2 := by
  induction l with
  | nil => simp [cmpFold, tryFoldCmp]
  | cons p ps ih =>
    rcases Nat.lt_trichotomy p.1 p.2 with h1 | h1 | h1
    · have hc : compare p.1 p.2 = .lt := Nat.compare_eq_lt.2 h1
      simp only [cmpFold, tryFoldCmp, hc, cmpAcc, List.forall_mem_cons]
      rw [tryFoldCmp_lt]
      constructor
      · intro h; split at h <;> simp_all
      · intro h; exact absurd h.1 (Nat.ne_of_lt h1)
    · have hc : compare p.1 p.2 = .eq := Nat.compare_eq_eq.2 h1
      simp only [cmpFold, tryFoldCmp, hc, cmpAcc, List.forall_mem_cons] at *
      rw [ih]; simp [h1]
    · have hc : compare p.1 p.2 = .gt := Nat.compare_eq_gt.2 h1
      simp only [cmpFold, tryFoldCmp, hc, cmpAcc, List.forall_mem_cons]
      rw [tryFoldCmp_gt]
      constructor
      · intro h; split at h <;> simp_all
      · intro h; exact absurd h.1.symm (Nat.ne_of_lt h1)

theorem cmpFold_eq_some_lt (l : List (Nat × Nat)) :
    cmpFold l = some .lt ↔ (∀ p ∈ l, p.1 ≤ p.2) ∧ (∃ p ∈ l, p.1 < p.2) := by
  induction l with
  | nil => simp [cmpFold, tryFoldCmp]
  | cons p ps ih =>
    rcases Nat.lt_trichotomy p.1 p.2 with h1 | h1 | h1
    · have hc : compare p.1 p.2 = .lt := Nat.compare_eq_lt.2 h1
      simp only [cmpFold, tryFoldCmp, hc, cmpAcc, List.forall_mem_cons,
        List.exists_mem_cons_iff]
      rw [tryFoldCmp_lt]
      by_cases hall : ∀ x ∈ ps, x.1 ≤ x.2
      · rw [if_pos hall]
        exact iff_of_true rfl ⟨⟨Nat.le_of_lt h1, hall⟩, Or.inl h1⟩
      · rw [if_neg hall]
        exact iff_of_false (by simp) (fun h => hall h.1.2)
    · have hc : compare p.1 p.2 = .eq := Nat.compare_eq_eq.2 h1
      simp only [cmpFold, tryFoldCmp, hc, cmpAcc, List.forall_mem_cons,
        List.exists_mem_cons_iff] at *
      rw [ih]
      constructor
      · intro h; exact ⟨⟨Nat.le_of_eq h1, h.1⟩, Or.inr h.2⟩
      · rintro ⟨⟨-, hall⟩, hex | hex⟩
        · exact absurd h1 (Nat.ne_of_lt hex)
        · exact ⟨hall, hex⟩
    · have hc : compare p.1 p.2 = .gt := Nat.compare_eq_gt.2 h1
      have hn : ¬ p.1 ≤ p.2 := Nat.not_le.2 h1
      simp only [cmpFold, tryFoldCmp, hc, cmpAcc, List.forall_mem_cons]
      rw [tryFoldCmp_gt]
      refine iff_of_false ?_ (fun h => hn h.1.1)
      split <;> simp

theorem cmpFold_eq_some_gt (l : List (Nat × Nat)) :
    cmpFold l = some .gt ↔ (∀ p ∈ l, p.2 ≤ p.1) ∧ (∃ p ∈ l, p.2 < p.1) := by
  induction l with
  | nil => simp [cmpFold, tryFoldCmp]
  | cons p ps ih =>
    rcases Nat.lt_trichotomy p.1 p.2 with h1 | h1 | h1
    · have hc : compare p.1 p.2 = .lt := Nat.compare_eq_lt.2 h1
      have hn : ¬ p.2 ≤ p.1 := Nat.not_le.2 h1
      simp only [cmpFold, tryFoldCmp, hc, cmpAcc, List.forall_mem_cons]
      rw [tryFoldCmp_lt]
      refine iff_of_false ?_ (fun h => hn h.1.1)
      split <;> simp
    · have hc : compare p.1 p.2 = .eq := Nat.compare_eq_eq.2 h1
      simp only [cmpFold, tryFoldCmp, hc, cmpAcc, List.forall_mem_cons,
        List.exists_mem_cons_iff] at *
      rw [ih]
      constructor
      · intro h; exact ⟨⟨Nat.le_of_eq h1.symm, h.1⟩, Or.inr h.2⟩
      · rintro ⟨⟨-, hall⟩, hex | hex⟩
        · exact absurd h1 (Nat.ne_of_gt hex)
        · exact ⟨hall, hex⟩
    · have hc : compare p.1 p.2 = .gt := Nat.compare_eq_gt.2 h1
      simp only [cmpFold, tryFoldCmp, hc, cmpAcc, List.forall_mem_cons,
        List.exists_mem_cons_iff]
      rw [tryFoldCmp_gt]
      by_cases hall : ∀ x ∈ ps, x.2 ≤ x.1
      · rw [if_pos hall]
        exact iff_of_true rfl ⟨⟨Nat.le_of_lt h1, hall⟩, Or.inl h1⟩
      · rw [if_neg hall]
        exact iff_of_false (by simp) (fun h => hall h.1.2)

theorem getD_set_self {α : Type} (l : List α) (n : Nat) (a d : α)
    (h : n < l.length) : (l.set n a).getD n d = a := by
  rw [List.getD_eq_get?, List.get?_set_eq_of_lt a h]
  rfl

theorem getD_set_other {α : Type} (l : List α) (m n : Nat) (a d : α)
    (h : m ≠ n) : (l.set m a).getD n d = l.getD n d := by
  rw [List.getD_eq_get?, List.get?_set_ne a l h, List.getD_eq_get?]

theorem getD_map_range {α : Type} (f : Nat → α) (k j : Nat) (d : α)
    (h : j < k) : (((List.range k).map f)).getD j d = f j := by
  rw [List.getD_eq_get?, List.get?_map, List.get?_range h]
  rfl

theorem getD_zipWith_max (u v : List Nat) (j : Nat)
    (h1 : j < u.length) (h2 : j < v.length) :
    (List.zipWith max u v).getD j 0 = max (u.getD j 0) (v.getD j 0) := by
  rw [List.getD_eq_get?, List.get?_zipWith', List.get?_eq_get h1,
    List.get?_eq_get h2, List.getD_eq_getElem u 0 h1, List.getD_eq_getElem v 0 h2]
  rfl

theorem getD_enum_map (l : List Nat) (f : Nat × Nat → Nat) (j : Nat)
    (h : j < l.length) :
    ((l.enum.map f)).getD j 0 = f (j, l.getD j 0) := by
  rw [List.getD_eq_get?, List.get?_map, List.get?_enum, List.get?_eq_get h,
    List.getD_eq_getElem l 0 h]
  rfl

theorem getD_mem {α : Type} (l : List α) (n : Nat) (d : α)
    (h : n < l.length) : l.getD n d ∈ l := by
  rw [List.getD_eq_getElem l d h]
  exact List.getElem_mem h

theorem mem_zip_getD (xs ys : List Nat) (j : Nat)
    (h1 : j < xs.length) (h2 : j < ys.length) :
    (xs.getD j 0, ys.getD j 0) ∈ xs.zip ys := by
  induction xs generalizing ys j with
  | nil => exact absurd h1 (by simp)
  | cons x xs ih =>
    cases ys with
    | nil => exact absurd h2 (by simp)
    | cons y ys =>
      cases j with
      | zero => exact List.mem_cons_self _ _
      | succ j =>
        exact List.mem_cons_of_mem _
          (ih ys j (Nat.lt_of_succ_lt_succ h1) (Nat.lt_of_succ_lt_succ h2))

theorem zip_all_of_getD (R : Nat → Nat → Prop) (xs ys : List Nat)
    (h : ∀ j, j < xs.length → j < ys.length → R (xs.getD j 0) (ys.getD j 0)) :
    ∀ p ∈ xs.zip ys, R p.1 p.2 := by
  induction xs generalizing ys with
  | nil => simp
  | cons x xs ih =>
    cases ys with
    | nil => simp
    | cons y ys =>
      intro p hp
      rcases List.mem_cons.1 hp with hp | hp
      · subst hp; exact h 0 (by simp) (by simp)
      · exact ih ys
          (fun j h1 h2 => h (j + 1) (Nat.succ_lt_succ h1) (Nat.succ_lt_succ h2))
          p hp

theorem zip_append_eq {α β : Type} (u x : List α) (v y : List β)
    (h : u.length = v.length) :
    (u ++ x).zip (v ++ y) = u.zip v ++ x.zip y := by
  induction u generalizing v with
  | nil =>
    cases v with
    | nil => simp
    | cons b v => exact absurd h (by simp)
  | cons a u ih =>
    cases v with
    | nil => exact absurd h (by simp)
    | cons b v =>
      simp only [List.cons_append, List.zip_cons_cons, List.cons.injEq, true_and]
      exact ih v (by simpa using h)

theorem flatten_zip_all (R : Nat → Nat → Prop) (A B : List (List Nat))
    (h : List.Forall₂ (fun u v => u.length = v.length ∧ ∀ p ∈ u.zip v, R p.1 p.2) A B) :
    ∀ p ∈ A.flatten.zip B.flatten, R p.1 p.2 := by
  induction h with
  | nil => simp
  | cons hd tl ih =>
    rename_i u v A2 B2
    simp only [List.flatten_cons]
    rw [zip_append_eq _ _ _ _ hd.1]
    intro p hp
    rcases List.mem_append.1 hp with hp | hp
    · exact hd.2 p hp
    · exact ih p hp

theorem flatten_zip_ex (R : Nat → Nat → Prop) (A B : List (List Nat)) (r : Nat)
    (hf : List.Forall₂ (fun u v : List Nat => u.length = v.length) A B)
    (hr : r < A.length)
    (hex : ∃ p ∈ (A.getD r []).zip (B.getD r []), R p.1 p.2) :
    ∃ p ∈ A.flatten.zip B.flatten, R p.1 p.2 := by
  induction hf generalizing r with
  | nil => exact absurd hr (by simp)
  | cons hd tl ih =>
    rename_i u v A2 B2
    simp only [List.flatten_cons]
    rw [zip_append_eq _ _ _ _ hd]
    cases r with
    | zero =>
      obtain ⟨p, hp, hR⟩ := hex
      exact ⟨p, List.mem_append_left _ hp, hR⟩
    | succ r =>
      obtain ⟨p, hp, hR⟩ := ih r (Nat.lt_of_succ_lt_succ hr) hex
      exact ⟨p, List.mem_append_right _ hp, hR⟩

theorem foldl_colmax_acc (m : List (List Nat)) (col acc : Nat) :
    acc ≤ m.foldl (fun acc vi => max (vi.getD col 0) acc) acc := by
  induction m generalizing acc with
  | nil => exact Nat.le_refl _
  | cons u m ih =>
    exact Nat.le_trans (Nat.le_max_right _ _) (ih (max (u.getD col 0) acc))

theorem le_foldl_colmax (m : List (List Nat)) (v : List Nat) (hv : v ∈ m)
    (col acc : Nat) :
    v.getD col 0 ≤ m.foldl (fun acc vi => max (vi.getD col 0) acc) acc := by
  induction m generalizing acc with
  | nil => exact absurd hv (by simp)
  | cons u m ih =>
    rcases List.mem_cons.1 hv with hv | hv
    · subst hv
      exact Nat.le_trans (Nat.le_max_left _ _) (foldl_colmax_acc m col _)
    · exact ih hv _

theorem vectorCmp_of_eq_length (a b : VectorClock)
    (h : a.clk.length = b.clk.length) :
    a.cmp b = cmpFold (a.clk.zip b.clk) := by
  simp only [VectorClock.cmp]
  rw [if_neg (by omega)]

theorem matrixCmp_of_eq_length (a b : MatrixClock)
    (h : a.clk.length = b.clk.length) :
    a.cmp b = cmpFold (a.clk.flatten.zip b.clk.flatten) := by
  simp only [MatrixClock.cmp]
  rw [if_neg (by omega)]

theorem takeWhile_len_le {α : Type} (p : α → Bool) (l : List α) :
    (l.takeWhile p).length ≤ l.length := by
  induction l with
  | nil => exact Nat.le_refl _
  | cons x l ih =>
    by_cases hp : p x
    · simpa [List.takeWhile_cons, hp] using ih
    · simp [List.takeWhile_cons, hp]

theorem takeWhile_getD_true {α : Type} (p : α → Bool) (l : List α) (j : Nat)
    (d : α) (h : j < (l.takeWhile p).length) : p (l.getD j d) = true := by
  induction l generalizing j with
  | nil => exact absurd h (by simp)
  | cons x l ih =>
    by_cases hp : p x
    · cases j with
      | zero => simpa using hp
      | succ j =>
        rw [List.getD_cons_succ]
        exact ih j (by simpa [List.takeWhile_cons, hp] using h)
    · rw [List.takeWhile_cons, if_neg hp] at h
      exact absurd h (by simp)

theorem takeWhile_boundary {α : Type} (p : α → Bool) (l : List α) (d : α)
    (h : (l.takeWhile p).length < l.length) :
    p (l.getD (l.takeWhile p).length d) = false := by
  induction l with
  | nil => exact absurd h (by simp)
  | cons x l ih =>
    by_cases hp : p x
    · rw [List.takeWhile_cons, if_pos hp]
      rw [List.takeWhile_cons, if_pos hp] at h
      simpa [List.getD_cons_succ] using ih (by simpa using h)
    · rw [List.takeWhile_cons, if_neg hp]
      simpa using hp

theorem ppAux_eq_of_partition (pred : MatrixClock → Bool) (xs : List MatrixClock)
    (k : Nat) :
    ∀ fuel lo hi, hi - lo ≤ fuel → lo ≤ k → k ≤ hi →
    (∀ j, lo ≤ j → j < k → pred (xs.getD j default) = true) →
    (∀ j, k ≤ j → j < hi → pred (xs.getD j default) = false) →
    ppAux pred xs fuel lo hi = k := by
  intro fuel
  induction fuel with
  | zero =>
    intro lo hi hfuel hlo hk _ _
    simp only [ppAux]
    omega
  | succ fuel ih =>
    intro lo hi hfuel hlo hk htrue hfalse
    simp only [ppAux]
    by_cases hlt : lo < hi
    · rw [if_pos hlt]
      by_cases hp : pred (xs.getD ((lo + hi) / 2) default) = true
      · rw [if_pos hp]
        have hmidk : (lo + hi) / 2 < k := by
          by_contra hcon
          rw [hfalse ((lo + hi) / 2) (by omega) (by omega)] at hp
          simp at hp
        exact ih (((lo + hi) / 2) + 1) hi (by omega) (by omega) hk
          (fun j h1 h2 => htrue j (by omega) h2) hfalse
      · rw [if_neg hp]
        have hkmid : k ≤ (lo + hi) / 2 := by
          by_contra hcon
          rw [htrue ((lo + hi) / 2) (by omega) (by omega)] at hp
          simp at hp
        exact ih lo ((lo + hi) / 2) (by omega) hlo hkmid htrue
          (fun j h1 h2 => hfalse j h1 (by omega))
    · rw [if_neg hlt]
      omega

theorem partitionPoint_eq_takeWhile (pred : MatrixClock → Bool)
    (xs : List MatrixClock)
    (hmono : ∀ j k, j ≤ k → k < xs.length →
      pred (xs.getD k default) = true → pred (xs.getD j default) = true) :
    partitionPoint pred xs = (xs.takeWhile pred).length := by
  have hkle := takeWhile_len_le pred xs
  refine ppAux_eq_of_partition pred xs _ xs.length 0 xs.length (by omega)
    (Nat.zero_le _) hkle (fun j _ h2 => takeWhile_getD_true pred xs j default h2)
    (fun j h1 h2 => ?_)
  by_cases hj : pred (xs.getD j default) = true
  · have hkb : pred (xs.getD (xs.takeWhile pred).length default) = true :=
      hmono _ j h1 h2 hj
    rw [takeWhile_boundary pred xs default (by omega)] at hkb
    simp at hkb
  · simpa using hj

theorem cmpFold_eq_none (l : List (Nat × Nat)) :
    cmpFold l = none ↔ (∃ p ∈ l, p.1 < p.2) ∧ (∃ p ∈ l, p.2 < p.1) := by
  constructor
  · intro h
    by_cases hle : ∀ p ∈ l, p.1 ≤ p.2
    · by_cases hex : ∃ p ∈ l, p.1 < p.2
      · exact absurd ((cmpFold_eq_some_lt l).2 ⟨hle, hex⟩) (by simp [h])
      · have : ∀ p ∈ l, p.1 = p.2 := by
          intro p hp
          exact Nat.le_antisymm (hle p hp)
            (Nat.le_of_not_lt (fun hlt => hex ⟨p, hp, hlt⟩))
        exact absurd ((cmpFold_eq_some_eq l).2 this) (by simp [h])
    · push_neg at hle
      obtain ⟨p, hp, hplt⟩ := hle
      have hgt : ∃ p ∈ l, p.2 < p.1 := ⟨p, hp, hplt⟩
      refine ⟨?_, hgt⟩
      by_contra hex
      push_neg at hex
      exact absurd ((cmpFold_eq_some_gt l).2 ⟨hex, hgt⟩) (by simp [h])
  · rintro ⟨⟨p, hp, hlt⟩, ⟨q, hq, hgt⟩⟩
    rcases h : cmpFold l with - | o
    · rfl
    · cases o with
      | lt =>
        have := ((cmpFold_eq_some_lt l).1 h).1 q hq
        omega
      | eq =>
        have := (cmpFold_eq_some_eq l).1 h p hp
        omega
      | gt =>
        have := ((cmpFold_eq_some_gt l).1 h).1 p hp
        omega

/-!
### Claim theorems
-/

/-- C1: for two clocks of the same `n_procs` (for matrix clocks, square
matrices of the same size), causal comparison returns `Less` exactly when
every component of the first is ≤ the corresponding component of the second
and at least one is strictly less; `Greater` in the symmetric case; `Equal`
exactly when all components are equal; and `None` (incomparable) exactly when
some components are strictly less and others strictly greater. For clocks of
differing `n_procs`, comparison returns `None` rather than failing. -/
theorem c1_causal_comparison :
    (∀ a b : VectorClock, a.clk.length = b.clk.length →
      ((a.cmp b = some .lt ↔
          (∀ p ∈ a.clk.zip b.clk, p.1 ≤ p.2) ∧ (∃ p ∈ a.clk.zip b.clk, p.1 < p.2)) ∧
       (a.cmp b = some .gt ↔
          (∀ p ∈ a.clk.zip b.clk, p.2 ≤ p.1) ∧ (∃ p ∈ a.clk.zip b.clk, p.2 < p.1)) ∧
       (a.cmp b = some .eq ↔ ∀ p ∈ a.clk.zip b.clk, p.1 = p.2) ∧
       (a.cmp b = none ↔
          (∃ p ∈ a.clk.zip b.clk, p.1 < p.2) ∧ (∃ p ∈ a.clk.zip b.clk, p.2 < p.1)))) ∧
    (∀ a b : VectorClock, a.clk.length ≠ b.clk.length → a.cmp b = none) ∧
    (∀ (n : Nat) (A B : MatrixClock), WFm A n → WFm B n →
      ((A.cmp B = some .lt ↔
          (∀ p ∈ A.clk.flatten.zip B.clk.flatten, p.1 ≤ p.2) ∧
          (∃ p ∈ A.clk.flatten.zip B.clk.flatten, p.1 < p.2)) ∧
       (A.cmp B = some .gt ↔
          (∀ p ∈ A.clk.flatten.zip B.clk.flatten, p.2 ≤ p.1) ∧
          (∃ p ∈ A.clk.flatten.zip B.clk.flatten, p.2 < p.1)) ∧
       (A.cmp B = some .eq ↔ ∀ p ∈ A.clk.flatten.zip B.clk.flatten, p.1 = p.2) ∧
       (A.cmp B = none ↔
          (∃ p ∈ A.clk.flatten.zip B.clk.flatten, p.1 < p.2) ∧
          (∃ p ∈ A.clk.flatten.zip B.clk.flatten, p.2 < p.1)))) ∧
    (∀ (n m : Nat) (A B : MatrixClock), WFm A n → WFm B m → n ≠ m →
      A.cmp B = none) := by
  refine ⟨?_, ?_, ?_, ?_⟩
  · intro a b h
    rw [vectorCmp_of_eq_length a b h]
    exact ⟨cmpFold_eq_some_lt _, cmpFold_eq_some_gt _, cmpFold_eq_some_eq _,
      cmpFold_eq_none _⟩
  · intro a b h
    simp only [VectorClock.cmp]
    rw [if_pos h]
  · intro n A B hA hB
    rw [matrixCmp_of_eq_length A B (by rw [hA.1, hB.1])]
    exact ⟨cmpFold_eq_some_lt _, cmpFold_eq_some_gt _, cmpFold_eq_some_eq _,
      cmpFold_eq_none _⟩
  · intro n m A B hA hB hnm
    simp only [MatrixClock.cmp]
    rw [if_pos (by rw [hA.1, hB.1]; exact hnm)]

/-- Witness for C1 at concrete clocks: a strict vector comparison, a
length-mismatched vector comparison, a concurrent matrix comparison, and a
size-mismatched matrix comparison. -/
theorem c1_witness :
    (VectorClock.mk 0 [1, 0]).cmp (VectorClock.mk 0 [1, 1]) = some .lt ∧
    (VectorClock.mk 0 [1, 0]).cmp (VectorClock.mk 0 [1]) = none ∧
    (MatrixClock.mk 0 [[1, 0], [0, 0]]).cmp (MatrixClock.mk 1 [[0, 0], [0, 1]]) = none ∧
    (MatrixClock.mk 0 [[1]]).cmp (MatrixClock.mk 1 [[0, 0], [0, 1]]) = none := by
  refine ⟨?_, ?_, ?_, ?_⟩
  · exact ((c1_causal_comparison.1 (VectorClock.mk 0 [1, 0])
      (VectorClock.mk 0 [1, 1]) rfl).1).2 ⟨by decide, by decide⟩
  · exact c1_causal_comparison.2.1 (VectorClock.mk 0 [1, 0])
      (VectorClock.mk 0 [1]) (by decide)
  · exact ((c1_causal_comparison.2.2.1 2 (MatrixClock.mk 0 [[1, 0], [0, 0]])
      (MatrixClock.mk 1 [[0, 0], [0, 1]]) (by decide) (by decide)).2.2.2).2
      ⟨by decide, by decide⟩
  · exact c1_causal_comparison.2.2.2 1 2 (MatrixClock.mk 0 [[1]])
      (MatrixClock.mk 1 [[0, 0], [0, 1]]) (by decide) (by decide) (by decide)

/-- C6: the claim says both `create(i, n)` implementations fail fast (hard
assertion) when `i ≥ n`. `VectorClock::new` does assert (modelled by
returning `none`), but `MatrixClock::new` contains no assertion: at the
failing input `i = 2, n = 2` it returns normally, producing an all-zero
2×2 matrix (row `i` is never written since no row index equals `i`), and the
error only surfaces later as an out-of-bounds panic in `extend`/`merge`. -/
theorem c6_matrix_new_does_not_assert :
    VectorClock.new 2 2 = none ∧
    MatrixClock.new 2 2 = MatrixClock.mk 2 [[0, 0], [0, 0]] := by decide

/-- C10: for each Peterson role, `release()` writes only that role's own
wants flag, setting it to `false`; the turn flag and the other role's wants
flag are left unchanged. -/
theorem c10_release_frame :
    ∀ p : Peterson,
      (p.releaseA.a_wants = false ∧ p.releaseA.b_wants = p.b_wants ∧
        p.releaseA.a_turn = p.a_turn) ∧
      (p.releaseB.b_wants = false ∧ p.releaseB.a_wants = p.a_wants ∧
        p.releaseB.a_turn = p.a_turn) := by
  decide

theorem pinv_init : Pinv PState.init = true := by decide

set_option maxRecDepth 4000 in
theorem pinv_step : ∀ s : PState, Pinv s = true →
    ∀ s2 ∈ nexts s, Pinv s2 = true := by decide

theorem pinv_of_reach : ∀ s : PState, PReach s → Pinv s = true := by
  intro s h
  induction h with
  | init => exact pinv_init
  | step hr hs ih => exact pinv_step _ ih _ hs

set_option maxRecDepth 4000 in
theorem pinv_no_both_held :
    ∀ s : PState, Pinv s = true → ¬(s.pcA = .held ∧ s.pcB = .held) := by decide

/-- C4: in every state reachable by interleaving the two Peterson roles
(each alternating `acquire` and `release`), the two roles are never
simultaneously between a completed `acquire` and the following `release`
(i.e. never both at `held`): mutual exclusion. -/
theorem c4_mutual_exclusion :
    ∀ s : PState, PReach s → ¬(s.pcA = .held ∧ s.pcB = .held) := by
  intro s h
  exact pinv_no_both_held s (pinv_of_reach s h)

/-- Witness for C4: the mutual-exclusion theorem applied at the initial
state, which is reachable by the empty interleaving. -/
theorem c4_witness :
    ¬(PState.init.pcA = .held ∧ PState.init.pcB = .held) :=
  c4_mutual_exclusion PState.init PReach.init

theorem get_eq_getD {α : Type} (l : List α) (k : Nat) (d : α)
    (h : k < l.length) : l.get ⟨k, h⟩ = l.getD k d := by
  rw [List.getD_eq_getElem l d h]
  rfl

theorem getD_zipWith_gen {α β γ : Type} (f : α → β → γ) (u : List α)
    (v : List β) (j : Nat) (d1 : α) (d2 : β) (d3 : γ)
    (h1 : j < u.length) (h2 : j < v.length) :
    (List.zipWith f u v).getD j d3 = f (u.getD j d1) (v.getD j d2) := by
  rw [List.getD_eq_get?, List.get?_zipWith', List.get?_eq_get h1,
    List.get?_eq_get h2, List.getD_eq_getElem u d1 h1, List.getD_eq_getElem v d2 h2]
  rfl

theorem pairwise_max_getD (u v : List Nat) (j : Nat)
    (h1 : j < u.length) (h2 : j < v.length) :
    (pairwise_max u v).getD j 0 = max (u.getD j 0) (v.getD j 0) :=
  getD_zipWith_max u v j h1 h2

theorem pairwise_max_length (u v : List Nat) :
    (pairwise_max u v).length = min u.length v.length := by
  simp [pairwise_max]

theorem le_colMax (m : List (List Nat)) (v : List Nat) (hv : v ∈ m)
    (col : Nat) : v.getD col 0 ≤ colMax m col :=
  le_foldl_colmax m v hv col 0

theorem vmerge_length (a b : VectorClock) :
    (a.merge b).clk.length = min a.clk.length b.clk.length := by
  simp [VectorClock.merge, pairwise_max]

theorem vmerge_getD (a b : VectorClock) (j : Nat) (h1 : j < a.clk.length)
    (h2 : j < b.clk.length) :
    (a.merge b).clk.getD j 0 =
      max (a.clk.getD j 0) (b.clk.getD j 0) + if j = a.i then 1 else 0 := by
  show ((pairwise_max a.clk b.clk).enum.map
    (fun p => p.2 + if p.1 = a.i then 1 else 0)).getD j 0 = _
  rw [getD_enum_map _ _ j (by rw [pairwise_max_length]; omega)]
  rw [pairwise_max_getD a.clk b.clk j h1 h2]

theorem mmerge_clk_eq (a b : MatrixClock) :
    (a.merge b).clk =
      (List.zipWith pairwise_max a.clk b.clk).set a.i
        (((List.range a.clk.length).map
            (colMax (List.zipWith pairwise_max a.clk b.clk))).set a.i
          ((((List.range a.clk.length).map
            (colMax (List.zipWith pairwise_max a.clk b.clk))).getD a.i 0) + 1)) :=
  rfl

theorem mmerge_length (a b : MatrixClock) :
    (a.merge b).clk.length = min a.clk.length b.clk.length := by
  rw [mmerge_clk_eq]
  simp

theorem mmerge_row_ne (a b : MatrixClock) (r : Nat) (hr : r ≠ a.i)
    (h1 : r < a.clk.length) (h2 : r < b.clk.length) :
    (a.merge b).clk.getD r [] =
      pairwise_max (a.clk.getD r []) (b.clk.getD r []) := by
  rw [mmerge_clk_eq, getD_set_other _ _ _ _ _ (Ne.symm hr)]
  exact getD_zipWith_gen pairwise_max a.clk b.clk r [] [] [] h1 h2

theorem mmerge_rowi (a b : MatrixClock) (h1 : a.i < a.clk.length)
    (h2 : a.i < b.clk.length) :
    (a.merge b).clk.getD a.i [] =
      ((List.range a.clk.length).map
          (colMax (List.zipWith pairwise_max a.clk b.clk))).set a.i
        ((((List.range a.clk.length).map
          (colMax (List.zipWith pairwise_max a.clk b.clk))).getD a.i 0) + 1) := by
  rw [mmerge_clk_eq]
  exact getD_set_self _ _ _ _ (by simp; omega)

theorem mmerge_row_len (a b : MatrixClock) (n : Nat) (hA : WFm a n)
    (hB : WFm b n) (hi : a.i < n) (r : Nat) (hr : r < n) :
    ((a.merge b).clk.getD r []).length = n := by
  have h1 : r < a.clk.length := by rw [hA.1]; exact hr
  have h2 : r < b.clk.length := by rw [hB.1]; exact hr
  by_cases hri : r = a.i
  · subst hri
    rw [mmerge_rowi a b h1 h2]
    simp [hA.1]
  · rw [mmerge_row_ne a b r hri h1 h2, pairwise_max_length]
    rw [hA.2 _ (getD_mem _ _ _ h1), hB.2 _ (getD_mem _ _ _ h2)]
    exact Nat.min_self n

theorem mmerge_entry_ge (a b : MatrixClock) (n : Nat) (hA : WFm a n)
    (hB : WFm b n) (hi : a.i < n) (r col : Nat) (hr : r < n) (hcol : col < n) :
    max ((a.clk.getD r []).getD col 0) ((b.clk.getD r []).getD col 0) ≤
      ((a.merge b).clk.getD r []).getD col 0 := by
  have hlenA : a.clk.length = n := hA.1
  have hlenB : b.clk.length = n := hB.1
  have h1 : r < a.clk.length := by rw [hA.1]; exact hr
  have h2 : r < b.clk.length := by rw [hB.1]; exact hr
  have hrowA : (a.clk.getD r []).length = n := hA.2 _ (getD_mem _ _ _ h1)
  have hrowB : (b.clk.getD r []).length = n := hB.2 _ (getD_mem _ _ _ h2)
  have hia : a.i < a.clk.length := by rw [hA.1]; exact hi
  have hib : a.i < b.clk.length := by rw [hB.1]; exact hi
  have hMlen : (List.zipWith pairwise_max a.clk b.clk).length = a.clk.length := by
    simp [hA.1, hB.1]
  by_cases hri : r = a.i
  · subst hri
    rw [mmerge_rowi a b hia hib]
    have hMr : (List.zipWith pairwise_max a.clk b.clk).getD a.i [] =
        pairwise_max (a.clk.getD a.i []) (b.clk.getD a.i []) :=
      getD_zipWith_gen pairwise_max a.clk b.clk a.i [] [] [] hia hib
    have hMmem : (List.zipWith pairwise_max a.clk b.clk).getD a.i [] ∈
        List.zipWith pairwise_max a.clk b.clk :=
      getD_mem _ _ _ (by omega)
    have hcm := le_colMax _ _ hMmem col
    rw [hMr, pairwise_max_getD _ _ col (by omega) (by omega)] at hcm
    by_cases hci : col = a.i
    · subst hci
      rw [getD_set_self _ _ _ _ (by simp; omega)]
      rw [getD_map_range _ _ _ _ (by omega)]
      omega
    · rw [getD_set_other _ _ _ _ _ (Ne.symm hci)]
      rw [getD_map_range _ _ _ _ (by omega)]
      exact hcm
  · rw [mmerge_row_ne a b r hri h1 h2,
      pairwise_max_getD _ _ col (by omega) (by omega)]

theorem mmerge_diag_gt (a b : MatrixClock) (n : Nat) (hA : WFm a n)
    (hB : WFm b n) (hi : a.i < n) :
    max ((a.clk.getD a.i []).getD a.i 0) ((b.clk.getD a.i []).getD a.i 0) <
      ((a.merge b).clk.getD a.i []).getD a.i 0 := by
  have hia : a.i < a.clk.length := by rw [hA.1]; exact hi
  have hib : a.i < b.clk.length := by rw [hB.1]; exact hi
  have hrowA : (a.clk.getD a.i []).length = n := hA.2 _ (getD_mem _ _ _ hia)
  have hrowB : (b.clk.getD a.i []).length = n := hB.2 _ (getD_mem _ _ _ hib)
  have hMlen : (List.zipWith pairwise_max a.clk b.clk).length = a.clk.length := by
    simp [hA.1, hB.1]
  have hMr : (List.zipWith pairwise_max a.clk b.clk).getD a.i [] =
      pairwise_max (a.clk.getD a.i []) (b.clk.getD a.i []) :=
    getD_zipWith_gen pairwise_max a.clk b.clk a.i [] [] [] hia hib
  have hMmem : (List.zipWith pairwise_max a.clk b.clk).getD a.i [] ∈
      List.zipWith pairwise_max a.clk b.clk :=
    getD_mem _ _ _ (by omega)
  have hcm := le_colMax _ _ hMmem a.i
  rw [hMr, pairwise_max_getD _ _ a.i (by omega) (by omega)] at hcm
  rw [mmerge_rowi a b hia hib]
  rw [getD_set_self _ _ _ _ (by simp; omega)]
  rw [getD_map_range _ _ _ _ (by omega)]
  omega

theorem WFm_merge (a b : MatrixClock) (n : Nat) (hA : WFm a n) (hB : WFm b n)
    (hi : a.i < n) : WFm (a.merge b) n := by
  have hlen : (a.merge b).clk.length = n := by
    rw [mmerge_length, hA.1, hB.1]
    exact Nat.min_self n
  refine ⟨hlen, ?_⟩
  intro row hrow
  rcases List.mem_iff_get.1 hrow with ⟨⟨k, hk⟩, hkr⟩
  rw [← hkr, get_eq_getD _ _ []]
  exact mmerge_row_len a b n hA hB hi k (by omega)

theorem mmerge_forall2_left (a b : MatrixClock) (n : Nat) (hA : WFm a n)
    (hB : WFm b n) (hi : a.i < n) :
    List.Forall₂
      (fun u v : List Nat => u.length = v.length ∧ ∀ p ∈ u.zip v, p.1 ≤ p.2)
      a.clk (a.merge b).clk := by
  rw [List.forall₂_iff_get]
  refine ⟨by rw [hA.1, (WFm_merge a b n hA hB hi).1], ?_⟩
  intro k h1 h2
  have hk : k < n := by rw [← hA.1]; exact h1
  rw [get_eq_getD _ _ [], get_eq_getD _ _ []]
  have hrowA : (a.clk.getD k []).length = n := hA.2 _ (getD_mem _ _ _ h1)
  have hrowM : ((a.merge b).clk.getD k []).length = n :=
    mmerge_row_len a b n hA hB hi k hk
  refine ⟨by rw [hrowA, hrowM], ?_⟩
  apply zip_all_of_getD
  intro j hj1 hj2
  have hj : j < n := by rw [← hrowA]; exact hj1
  have := mmerge_entry_ge a b n hA hB hi k j hk hj
  omega

theorem mmerge_forall2_right (a b : MatrixClock) (n : Nat) (hA : WFm a n)
    (hB : WFm b n) (hi : a.i < n) :
    List.Forall₂
      (fun u v : List Nat => u.length = v.length ∧ ∀ p ∈ u.zip v, p.1 ≤ p.2)
      b.clk (a.merge b).clk := by
  rw [List.forall₂_iff_get]
  refine ⟨by rw [hB.1, (WFm_merge a b n hA hB hi).1], ?_⟩
  intro k h1 h2
  have hk : k < n := by rw [← hB.1]; exact h1
  rw [get_eq_getD _ _ [], get_eq_getD _ _ []]
  have hrowB : (b.clk.getD k []).length = n := hB.2 _ (getD_mem _ _ _ h1)
  have hrowM : ((a.merge b).clk.getD k []).length = n :=
    mmerge_row_len a b n hA hB hi k hk
  refine ⟨by rw [hrowB, hrowM], ?_⟩
  apply zip_all_of_getD
  intro j hj1 hj2
  have hj : j < n := by rw [← hrowB]; exact hj1
  have := mmerge_entry_ge a b n hA hB hi k j hk hj
  omega

theorem mmerge_cmp_lt_left (a b : MatrixClock) (n : Nat) (hA : WFm a n)
    (hB : WFm b n) (hi : a.i < n) : a.cmp (a.merge b) = some .lt := by
  have hW := WFm_merge a b n hA hB hi
  rw [matrixCmp_of_eq_length _ _ (by rw [hA.1, hW.1])]
  apply (cmpFold_eq_some_lt _).2
  refine ⟨flatten_zip_all _ _ _ (mmerge_forall2_left a b n hA hB hi), ?_⟩
  apply flatten_zip_ex _ _ _ a.i
    ((mmerge_forall2_left a b n hA hB hi).imp (fun u v h => h.1))
    (by rw [hA.1]; exact hi)
  have hia : a.i < a.clk.length := by rw [hA.1]; exact hi
  have hrowA : (a.clk.getD a.i []).length = n := hA.2 _ (getD_mem _ _ _ hia)
  have hrowM : ((a.merge b).clk.getD a.i []).length = n :=
    mmerge_row_len a b n hA hB hi a.i hi
  refine ⟨((a.clk.getD a.i []).getD a.i 0, ((a.merge b).clk.getD a.i []).getD a.i 0),
    mem_zip_getD _ _ a.i (by omega) (by omega), ?_⟩
  have := mmerge_diag_gt a b n hA hB hi
  simp only at *
  omega

theorem mmerge_cmp_lt_right (a b : MatrixClock) (n : Nat) (hA : WFm a n)
    (hB : WFm b n) (hi : a.i < n) : b.cmp (a.merge b) = some .lt := by
  have hW := WFm_merge a b n hA hB hi
  rw [matrixCmp_of_eq_length _ _ (by rw [hB.1, hW.1])]
  apply (cmpFold_eq_some_lt _).2
  refine ⟨flatten_zip_all _ _ _ (mmerge_forall2_right a b n hA hB hi), ?_⟩
  apply flatten_zip_ex _ _ _ a.i
    ((mmerge_forall2_right a b n hA hB hi).imp (fun u v h => h.1))
    (by rw [hB.1]; exact hi)
  have hib : a.i < b.clk.length := by rw [hB.1]; exact hi
  have hrowB : (b.clk.getD a.i []).length = n := hB.2 _ (getD_mem _ _ _ hib)
  have hrowM : ((a.merge b).clk.getD a.i []).length = n :=
    mmerge_row_len a b n hA hB hi a.i hi
  refine ⟨((b.clk.getD a.i []).getD a.i 0, ((a.merge b).clk.getD a.i []).getD a.i 0),
    mem_zip_getD _ _ a.i (by omega) (by omega), ?_⟩
  have := mmerge_diag_gt a b n hA hB hi
  simp only at *
  omega

/-- C8: for two clocks of the same kind with equal `n_procs` (and a valid
owner index), the result of `merge(self, other)` strictly succeeds both
inputs under the causal comparison, for `VectorClock` and for `MatrixClock`. -/
theorem c8_merge_dominance
    (a b : VectorClock) (hab : a.clk.length = b.clk.length)
    (hia : a.i < a.clk.length)
    (A B : MatrixClock) (n : Nat) (hA : WFm A n) (hB : WFm B n)
    (hiA : A.i < n) :
    a.cmp (a.merge b) = some .lt ∧ b.cmp (a.merge b) = some .lt ∧
    A.cmp (A.merge B) = some .lt ∧ B.cmp (A.merge B) = some .lt := by
  have hmlen : (a.merge b).clk.length = a.clk.length := by
    rw [vmerge_length]; omega
  refine ⟨?_, ?_, mmerge_cmp_lt_left A B n hA hB hiA,
    mmerge_cmp_lt_right A B n hA hB hiA⟩
  · rw [vectorCmp_of_eq_length _ _ hmlen.symm]
    apply (cmpFold_eq_some_lt _).2
    constructor
    · apply zip_all_of_getD
      intro j h1 h2
      rw [vmerge_getD a b j h1 (by omega)]
      have := Nat.le_max_left (a.clk.getD j 0) (b.clk.getD j 0)
      by_cases hj : j = a.i
      · rw [if_pos hj]; omega
      · rw [if_neg hj]; omega
    · refine ⟨(a.clk.getD a.i 0, (a.merge b).clk.getD a.i 0),
        mem_zip_getD _ _ a.i hia (by omega), ?_⟩
      simp only
      rw [vmerge_getD a b a.i hia (by omega), if_pos rfl]
      have := Nat.le_max_left (a.clk.getD a.i 0) (b.clk.getD a.i 0)
      omega
  · rw [vectorCmp_of_eq_length _ _ (by omega)]
    apply (cmpFold_eq_some_lt _).2
    constructor
    · apply zip_all_of_getD
      intro j h1 h2
      rw [vmerge_getD a b j (by omega) h1]
      have := Nat.le_max_right (a.clk.getD j 0) (b.clk.getD j 0)
      by_cases hj : j = a.i
      · rw [if_pos hj]; omega
      · rw [if_neg hj]; omega
    · refine ⟨(b.clk.getD a.i 0, (a.merge b).clk.getD a.i 0),
        mem_zip_getD _ _ a.i (by omega) (by omega), ?_⟩
      simp only
      rw [vmerge_getD a b a.i hia (by omega), if_pos rfl]
      have := Nat.le_max_right (a.clk.getD a.i 0) (b.clk.getD a.i 0)
      omega

/-- Witness for C8: merge dominance evaluated at concrete two-process
vector and matrix clocks. -/
theorem c8_witness :
    (VectorClock.mk 0 [1, 0]).cmp
      ((VectorClock.mk 0 [1, 0]).merge (VectorClock.mk 1 [0, 1])) = some .lt ∧
    (VectorClock.mk 1 [0, 1]).cmp
      ((VectorClock.mk 0 [1, 0]).merge (VectorClock.mk 1 [0, 1])) = some .lt ∧
    (MatrixClock.mk 0 [[1, 0], [0, 0]]).cmp
      ((MatrixClock.mk 0 [[1, 0], [0, 0]]).merge
        (MatrixClock.mk 1 [[0, 0], [0, 1]])) = some .lt ∧
    (MatrixClock.mk 1 [[0, 0], [0, 1]]).cmp
      ((MatrixClock.mk 0 [[1, 0], [0, 0]]).merge
        (MatrixClock.mk 1 [[0, 0], [0, 1]])) = some .lt :=
  c8_merge_dominance (VectorClock.mk 0 [1, 0]) (VectorClock.mk 1 [0, 1])
    (by decide) (by decide)
    (MatrixClock.mk 0 [[1, 0], [0, 0]]) (MatrixClock.mk 1 [[0, 0], [0, 1]]) 2
    (by decide) (by decide) (by decide)

theorem vextend_length (c : VectorClock) :
    c.extend.clk.length = c.clk.length := by
  simp [VectorClock.extend]

theorem mextend_length (c : MatrixClock) :
    c.extend.clk.length = c.clk.length := by
  simp [MatrixClock.extend]

theorem mextend_row_self (c : MatrixClock) (h : c.i < c.clk.length) :
    c.extend.clk.getD c.i [] =
      (c.clk.getD c.i []).set c.i ((c.clk.getD c.i []).getD c.i 0 + 1) :=
  getD_set_self _ _ _ _ h

theorem mextend_row_other (c : MatrixClock) (r : Nat) (h : r ≠ c.i) :
    c.extend.clk.getD r [] = c.clk.getD r [] :=
  getD_set_other _ _ _ _ _ (Ne.symm h)

theorem WFm_extend (c : MatrixClock) (n : Nat) (h : WFm c n) (hi : c.i < n) :
    WFm c.extend n := by
  refine ⟨by rw [mextend_length, h.1], ?_⟩
  intro row hrow
  rcases List.mem_iff_get.1 hrow with ⟨⟨k, hk⟩, hkr⟩
  have hk2 : k < c.clk.length := by
    rw [← mextend_length c]; exact hk
  rw [← hkr, get_eq_getD _ _ []]
  by_cases hki : k = c.i
  · subst hki
    rw [mextend_row_self c hk2, List.length_set]
    exact h.2 _ (getD_mem _ _ _ hk2)
  · rw [mextend_row_other c k hki]
    exact h.2 _ (getD_mem _ _ _ hk2)

theorem forall2_len_of_WFm (A B : MatrixClock) (n : Nat) (hA : WFm A n)
    (hB : WFm B n) :
    List.Forall₂ (fun u v : List Nat => u.length = v.length) A.clk B.clk := by
  rw [List.forall₂_iff_get]
  refine ⟨by rw [hA.1, hB.1], ?_⟩
  intro k h1 h2
  rw [get_eq_getD _ _ [], get_eq_getD _ _ []]
  rw [hA.2 _ (getD_mem _ _ _ h1), hB.2 _ (getD_mem _ _ _ h2)]

/-- C9: for clocks `e1`, `f1` of distinct owning processes (same size, valid
indices), with `f2 = merge(f1, e1)` and `e2 = extend(e1)`, where `e2` was
never merged into `f2`'s lineage — rendered as: `f1`'s knowledge of `e1`'s
owner does not exceed `e1`'s own count, so `f2`'s component for that owner
stays below `e2`'s sequence number — the causal comparison of `e2` and `f2`
is `None` in both directions, for both `VectorClock` and `MatrixClock`. -/
theorem c9_extension_incomparable
    (e1 f1 : VectorClock) (hlen : e1.clk.length = f1.clk.length)
    (hne : e1.i ≠ f1.i) (hie : e1.i < e1.clk.length) (hif : f1.i < f1.clk.length)
    (hlin : f1.clk.getD e1.i 0 ≤ e1.clk.getD e1.i 0)
    (E1 F1 : MatrixClock) (n : Nat) (hA : WFm E1 n) (hB : WFm F1 n)
    (hneM : E1.i ≠ F1.i) (hiE : E1.i < n) (hiF : F1.i < n)
    (hlinM : (F1.clk.getD E1.i []).getD E1.i 0 ≤ (E1.clk.getD E1.i []).getD E1.i 0) :
    e1.extend.cmp (f1.merge e1) = none ∧ (f1.merge e1).cmp e1.extend = none ∧
    E1.extend.cmp (F1.merge E1) = none ∧ (F1.merge E1).cmp E1.extend = none := by
  have hmlen : (f1.merge e1).clk.length = e1.clk.length := by
    rw [vmerge_length]; omega
  have helen : e1.extend.clk.length = e1.clk.length := vextend_length e1
  have ha2 : e1.extend.clk.getD e1.i 0 = e1.clk.getD e1.i 0 + 1 :=
    getD_set_self _ _ _ _ hie
  have hb2 : e1.extend.clk.getD f1.i 0 = e1.clk.getD f1.i 0 :=
    getD_set_other _ _ _ _ _ hne
  have hfa : (f1.merge e1).clk.getD e1.i 0 = e1.clk.getD e1.i 0 := by
    rw [vmerge_getD f1 e1 e1.i (by omega) hie, if_neg hne,
      Nat.max_eq_right hlin]
    omega
  have hfb : e1.clk.getD f1.i 0 < (f1.merge e1).clk.getD f1.i 0 := by
    rw [vmerge_getD f1 e1 f1.i hif (by omega), if_pos rfl]
    have := Nat.le_max_right (f1.clk.getD f1.i 0) (e1.clk.getD f1.i 0)
    omega
  -- matrix-side entry facts
  have hiEa : E1.i < E1.clk.length := by rw [hA.1]; exact hiE
  have hiEb : F1.i < E1.clk.length := by rw [hA.1]; exact hiF
  have hiFa : E1.i < F1.clk.length := by rw [hB.1]; exact hiE
  have hiFb : F1.i < F1.clk.length := by rw [hB.1]; exact hiF
  have hrEa : (E1.clk.getD E1.i []).length = n := hA.2 _ (getD_mem _ _ _ hiEa)
  have hrEb : (E1.clk.getD F1.i []).length = n := hA.2 _ (getD_mem _ _ _ hiEb)
  have hrFa : (F1.clk.getD E1.i []).length = n := hB.2 _ (getD_mem _ _ _ hiFa)
  have hWE2 : WFm E1.extend n := WFm_extend E1 n hA hiE
  have hWF2 : WFm (F1.merge E1) n := WFm_merge F1 E1 n hB hA hiF
  have hE2aa : (E1.extend.clk.getD E1.i []).getD E1.i 0 =
      (E1.clk.getD E1.i []).getD E1.i 0 + 1 := by
    rw [mextend_row_self E1 hiEa]
    exact getD_set_self _ _ _ _ (by omega)
  have hE2bb : (E1.extend.clk.getD F1.i []).getD F1.i 0 =
      (E1.clk.getD F1.i []).getD F1.i 0 := by
    rw [mextend_row_other E1 F1.i (Ne.symm hneM)]
  have hF2aa : ((F1.merge E1).clk.getD E1.i []).getD E1.i 0 =
      (E1.clk.getD E1.i []).getD E1.i 0 := by
    rw [mmerge_row_ne F1 E1 E1.i hneM hiFa hiEa,
      pairwise_max_getD _ _ E1.i (by omega) (by omega), Nat.max_eq_right hlinM]
  have hF2bb : (E1.clk.getD F1.i []).getD F1.i 0 <
      ((F1.merge E1).clk.getD F1.i []).getD F1.i 0 := by
    have h1 := mmerge_diag_gt F1 E1 n hB hA hiF
    have h2 := Nat.le_max_right ((F1.clk.getD F1.i []).getD F1.i 0)
      ((E1.clk.getD F1.i []).getD F1.i 0)
    omega
  have hrE2a : (E1.extend.clk.getD E1.i []).length = n :=
    hWE2.2 _ (getD_mem _ _ _ (by rw [mextend_length]; omega))
  have hrE2b : (E1.extend.clk.getD F1.i []).length = n :=
    hWE2.2 _ (getD_mem _ _ _ (by rw [mextend_length]; omega))
  have hrF2a : ((F1.merge E1).clk.getD E1.i []).length = n :=
    mmerge_row_len F1 E1 n hB hA hiF E1.i hiE
  have hrF2b : ((F1.merge E1).clk.getD F1.i []).length = n :=
    mmerge_row_len F1 E1 n hB hA hiF F1.i hiF
  refine ⟨?_, ?_, ?_, ?_⟩
  · rw [vectorCmp_of_eq_length _ _ (by omega)]
    apply (cmpFold_eq_none _).2
    constructor
    · refine ⟨(e1.extend.clk.getD f1.i 0, (f1.merge e1).clk.getD f1.i 0),
        mem_zip_getD _ _ f1.i (by omega) (by omega), ?_⟩
      simp only
      omega
    · refine ⟨(e1.extend.clk.getD e1.i 0, (f1.merge e1).clk.getD e1.i 0),
        mem_zip_getD _ _ e1.i (by omega) (by omega), ?_⟩
      simp only
      omega
  · rw [vectorCmp_of_eq_length _ _ (by omega)]
    apply (cmpFold_eq_none _).2
    constructor
    · refine ⟨((f1.merge e1).clk.getD e1.i 0, e1.extend.clk.getD e1.i 0),
        mem_zip_getD _ _ e1.i (by omega) (by omega), ?_⟩
      simp only
      omega
    · refine ⟨((f1.merge e1).clk.getD f1.i 0, e1.extend.clk.getD f1.i 0),
        mem_zip_getD _ _ f1.i (by omega) (by omega), ?_⟩
      simp only
      omega
  · rw [matrixCmp_of_eq_length _ _ (by rw [hWE2.1, hWF2.1])]
    apply (cmpFold_eq_none _).2
    constructor
    · apply flatten_zip_ex (fun a b => a < b) _ _ F1.i
        (forall2_len_of_WFm _ _ n hWE2 hWF2) (by rw [hWE2.1]; exact hiF)
      refine ⟨((E1.extend.clk.getD F1.i []).getD F1.i 0,
          ((F1.merge E1).clk.getD F1.i []).getD F1.i 0),
        mem_zip_getD _ _ F1.i (by omega) (by omega), ?_⟩
      simp only
      omega
    · apply flatten_zip_ex (fun a b => b < a) _ _ E1.i
        (forall2_len_of_WFm _ _ n hWE2 hWF2) (by rw [hWE2.1]; exact hiE)
      refine ⟨((E1.extend.clk.getD E1.i []).getD E1.i 0,
          ((F1.merge E1).clk.getD E1.i []).getD E1.i 0),
        mem_zip_getD _ _ E1.i (by omega) (by omega), ?_⟩
      simp only
      omega
  · rw [matrixCmp_of_eq_length _ _ (by rw [hWE2.1, hWF2.1])]
    apply (cmpFold_eq_none _).2
    constructor
    · apply flatten_zip_ex (fun a b => a < b) _ _ E1.i
        (forall2_len_of_WFm _ _ n hWF2 hWE2) (by rw [hWF2.1]; exact hiE)
      refine ⟨(((F1.merge E1).clk.getD E1.i []).getD E1.i 0,
          (E1.extend.clk.getD E1.i []).getD E1.i 0),
        mem_zip_getD _ _ E1.i (by omega) (by omega), ?_⟩
      simp only
      omega
    · apply flatten_zip_ex (fun a b => b < a) _ _ F1.i
        (forall2_len_of_WFm _ _ n hWF2 hWE2) (by rw [hWF2.1]; exact hiF)
      refine ⟨(((F1.merge E1).clk.getD F1.i []).getD F1.i 0,
          (E1.extend.clk.getD F1.i []).getD F1.i 0),
        mem_zip_getD _ _ F1.i (by omega) (by omega), ?_⟩
      simp only
      omega

/-- Witness for C9 at the two-process scenario from the source's doctests:
`e1 = new(0,2)`, `f1 = new(1,2)`, `e2 = e1.extend()`, `f2 = f1.merge(e1)`. -/
theorem c9_witness :
    (VectorClock.mk 0 [1, 0]).extend.cmp
      ((VectorClock.mk 1 [0, 1]).merge (VectorClock.mk 0 [1, 0])) = none ∧
    ((VectorClock.mk 1 [0, 1]).merge (VectorClock.mk 0 [1, 0])).cmp
      (VectorClock.mk 0 [1, 0]).extend = none ∧
    (MatrixClock.mk 0 [[1, 0], [0, 0]]).extend.cmp
      ((MatrixClock.mk 1 [[0, 0], [0, 1]]).merge
        (MatrixClock.mk 0 [[1, 0], [0, 0]])) = none ∧
    ((MatrixClock.mk 1 [[0, 0], [0, 1]]).merge
        (MatrixClock.mk 0 [[1, 0], [0, 0]])).cmp
      (MatrixClock.mk 0 [[1, 0], [0, 0]]).extend = none :=
  c9_extension_incomparable (VectorClock.mk 0 [1, 0]) (VectorClock.mk 1 [0, 1])
    (by decide) (by decide) (by decide) (by decide) (by decide)
    (MatrixClock.mk 0 [[1, 0], [0, 0]]) (MatrixClock.mk 1 [[0, 0], [0, 1]]) 2
    (by decide) (by decide) (by decide) (by decide) (by decide) (by decide)

theorem take_takeWhile_length {α : Type} (p : α → Bool) (l : List α) :
    l.take (l.takeWhile p).length = l.takeWhile p := by
  induction l with
  | nil => rfl
  | cons x l ih =>
    by_cases hp : p x
    · rw [List.takeWhile_cons, if_pos hp]
      simpa using ih
    · rw [List.takeWhile_cons, if_neg hp]
      rfl

theorem head?_drop_eq_getD {α : Type} (l : List α) (k : Nat) (d : α)
    (h : k < l.length) : (l.drop k).head? = some (l.getD k d) := by
  induction l generalizing k with
  | nil => exact absurd h (by simp)
  | cons x l ih =>
    cases k with
    | zero => rfl
    | succ k =>
      rw [List.drop_succ_cons, List.getD_cons_succ]
      exact ih k (Nat.lt_of_succ_lt_succ h)

/-- C2: `GCProcess::gc()` returns the empty sequence and leaves the log
unchanged when the event log is empty; otherwise, with `latest` the most
recently appended event, it evicts and returns (oldest first) exactly the
largest prefix of the buffered log all of whose events are causally stable
relative to `latest` (the next buffered event, if any, is unstable), and all
remaining events stay buffered. The hypothesis is the monotonicity invariant
of reachable logs (established for derivation chains in the C3 theorem),
which `partition_point`'s binary search requires. -/
theorem c2_gc_drains_stable_prefix (p : GCProcess)
    (hmono : ∀ latest, p.events.buf.getLast? = some latest →
      ∀ j k, j ≤ k → k < p.events.buf.length →
        (p.events.buf.getD k default).gc latest = true →
        (p.events.buf.getD j default).gc latest = true) :
    (p.events.buf = [] → p.gc = ([], p)) ∧
    (∀ latest, p.events.buf.getLast? = some latest →
      (p.gc).1 = p.events.buf.takeWhile (fun c => c.gc latest) ∧
      (p.gc).2.events.buf =
        p.events.buf.drop ((p.events.buf.takeWhile (fun c => c.gc latest)).length) ∧
      (∀ c ∈ (p.gc).1, c.gc latest = true) ∧
      (∀ c, ((p.gc).2.events.buf).head? = some c → c.gc latest = false)) := by
  constructor
  · intro h
    simp [GCProcess.gc, h]
  · intro latest hlast
    have hpp := partitionPoint_eq_takeWhile (fun c => c.gc latest) p.events.buf
      (fun j k hjk hk hp => hmono latest hlast j k hjk hk hp)
    have hgc : p.gc =
        (p.events.buf.take (partitionPoint (fun c => c.gc latest) p.events.buf),
         { p with events := p.events.drainFront (partitionPoint (fun c => c.gc latest) p.events.buf) }) := by
      simp [GCProcess.gc, hlast]
    rw [hgc, hpp]
    refine ⟨take_takeWhile_length _ _, rfl, ?_, ?_⟩
    · intro c hc
      rw [take_takeWhile_length _ _] at hc
      have hc2 : c ∈ p.events.buf.takeWhile (fun c => c.gc latest) := hc
      exact List.mem_takeWhile_imp (p := fun e : MatrixClock => e.gc latest) hc2
    · intro c hc
      simp only [RingDeque.drainFront] at hc
      by_cases hlen : (p.events.buf.takeWhile (fun c => c.gc latest)).length <
          p.events.buf.length
      · rw [head?_drop_eq_getD _ _ default hlen] at hc
        have := takeWhile_boundary (fun c => c.gc latest) p.events.buf default hlen
        rw [Option.some.inj hc] at this
        exact this
      · rw [List.drop_eq_nil_of_le (by omega)] at hc
        exact absurd hc (by simp)

/-- Witness for C2 at a genuine two-event single-process log
`[⟨0,[[1]]⟩, ⟨0,[[2]]⟩]`: both events are causally stable relative to the
latest event `⟨0,[[2]]⟩`, the monotonicity hypothesis holds non-vacuously,
and the non-empty branch of the theorem applies: `gc()` evicts both events
(oldest first) and the log empties, with no unstable survivor. -/
theorem c2_witness :
    ((GCProcess.mk 0 1
        (RingDeque.mk 4 0 [MatrixClock.mk 0 [[1]], MatrixClock.mk 0 [[2]]])).gc).1 =
      [MatrixClock.mk 0 [[1]], MatrixClock.mk 0 [[2]]] ∧
    ((GCProcess.mk 0 1
        (RingDeque.mk 4 0 [MatrixClock.mk 0 [[1]], MatrixClock.mk 0 [[2]]])).gc).2.events.buf =
      [] ∧
    (∀ c ∈ ((GCProcess.mk 0 1
        (RingDeque.mk 4 0 [MatrixClock.mk 0 [[1]], MatrixClock.mk 0 [[2]]])).gc).1,
      c.gc (MatrixClock.mk 0 [[2]]) = true) := by
  have h := c2_gc_drains_stable_prefix
    (GCProcess.mk 0 1
      (RingDeque.mk 4 0 [MatrixClock.mk 0 [[1]], MatrixClock.mk 0 [[2]]]))
    (by
      intro latest hlast j k hjk hk hp
      rw [show ([MatrixClock.mk 0 [[1]], MatrixClock.mk 0 [[2]]].getLast?) =
        some (MatrixClock.mk 0 [[2]]) from rfl] at hlast
      obtain rfl := Option.some.inj hlast
      have hj2 : j < 2 := by
        simpa using Nat.lt_of_le_of_lt hjk hk
      interval_cases j <;> decide)
  have h2 := h.2 (MatrixClock.mk 0 [[2]]) rfl
  refine ⟨?_, ?_, h2.2.2.1⟩
  · rw [h2.1]; decide
  · rw [h2.2.1]; decide

theorem mextend_diag (c : MatrixClock) (n : Nat) (hwf : WFm c n)
    (hi : c.i < n) : c.extend.diag = c.diag + 1 := by
  have hia : c.i < c.clk.length := by rw [hwf.1]; exact hi
  have hrow : (c.clk.getD c.i []).length = n := hwf.2 _ (getD_mem _ _ _ hia)
  show (c.extend.clk.getD c.extend.i []).getD c.extend.i 0 = _
  have hexi : c.extend.i = c.i := rfl
  rw [hexi, mextend_row_self c hia, getD_set_self _ _ _ _ (by omega)]
  rfl

theorem mderiv_diag_lt (n : Nat) (c c2 : MatrixClock) (hwf : WFm c n)
    (hi : c.i < n) (hd : MDeriv n c c2) : c.diag < c2.diag := by
  rcases hd with hd | ⟨o, ho, hd⟩
  · rw [hd, mextend_diag c n hwf hi]
    omega
  · subst hd
    have h1 := mmerge_diag_gt c o n hwf ho hi
    have h2 := Nat.le_max_left ((c.clk.getD c.i []).getD c.i 0)
      ((o.clk.getD c.i []).getD c.i 0)
    show c.diag < ((c.merge o).clk.getD (c.merge o).i []).getD (c.merge o).i 0
    have hmi : (c.merge o).i = c.i := rfl
    rw [hmi]
    unfold MatrixClock.diag at *
    omega

theorem chain_diag_strict_mono (i n : Nat) (log : List MatrixClock)
    (hin : i < n) (hwf : ∀ c ∈ log, WFm c n ∧ c.i = i)
    (hchain : List.Chain' (MDeriv n) log) :
    ∀ j k, j < k → k < log.length →
      (log.getD j default).diag < (log.getD k default).diag := by
  have hadj : ∀ m, m + 1 < log.length →
      (log.getD m default).diag < (log.getD (m + 1) default).diag := by
    intro m hm
    have hm1 : m < log.length := by omega
    have hstep := List.chain'_iff_get.1 hchain m (by omega)
    rw [get_eq_getD _ _ default, get_eq_getD _ _ default] at hstep
    have hmem : log.getD m default ∈ log := getD_mem _ _ _ hm1
    exact mderiv_diag_lt n _ _ (hwf _ hmem).1
      (by rw [(hwf _ hmem).2]; exact hin) hstep
  intro j k hjk hk
  induction k with
  | zero => omega
  | succ k ih =>
    rcases Nat.lt_succ_iff_lt_or_eq.1 hjk with h | h
    · exact Nat.lt_trans (ih h (by omega)) (hadj k hk)
    · subst h
      exact hadj j hk

theorem gc_of_diag_le (e e2 latest : MatrixClock) (hie : e.i = e2.i)
    (hd : e.diag ≤ e2.diag) (h : e2.gc latest = true) : e.gc latest = true := by
  simp only [MatrixClock.gc, List.all_eq_true] at *
  intro vi hvi
  have h2 := h vi hvi
  simp only [decide_eq_true_eq] at *
  unfold MatrixClock.diag at hd
  rw [← hie] at h2 hd
  omega

/-- C3: along every event log built by deriving each event from the previous
one by `extend` or `merge` (square clocks, fixed owner `i < n`), the diagonal
sequence numbers `event[i][i]` are strictly increasing; hence, relative to
any `latest` (in particular the last event of the log), causal stability is
monotone along the log — if the event at position `k` is stable, every
earlier event is stable — which makes the binary-search `partition_point`
cutoff used by `gc()` agree with a linear stability scan (`takeWhile`). -/
theorem c3_stability_monotone (i n : Nat) (log : List MatrixClock)
    (hin : i < n) (hwf : ∀ c ∈ log, WFm c n ∧ c.i = i)
    (hchain : List.Chain' (MDeriv n) log) :
    (∀ j k, j < k → k < log.length →
      (log.getD j default).diag < (log.getD k default).diag) ∧
    (∀ latest, log.getLast? = some latest →
      ∀ j k, j ≤ k → k < log.length →
        (log.getD k default).gc latest = true →
        (log.getD j default).gc latest = true) ∧
    (∀ latest, log.getLast? = some latest →
      partitionPoint (fun c => c.gc latest) log =
        (log.takeWhile (fun c => c.gc latest)).length) := by
  have hmono := chain_diag_strict_mono i n log hin hwf hchain
  have hstab : ∀ latest, log.getLast? = some latest →
      ∀ j k, j ≤ k → k < log.length →
        (log.getD k default).gc latest = true →
        (log.getD j default).gc latest = true := by
    intro latest hlast j k hjk hk hp
    rcases Nat.lt_or_ge j k with h | h
    · have hj : j < log.length := by omega
      have hij : (log.getD j default).i = i :=
        (hwf _ (getD_mem _ _ _ hj)).2
      have hik : (log.getD k default).i = i :=
        (hwf _ (getD_mem _ _ _ hk)).2
      exact gc_of_diag_le _ _ latest (by rw [hij, hik])
        (Nat.le_of_lt (hmono j k h hk)) hp
    · have : j = k := by omega
      subst this
      exact hp
  exact ⟨hmono, hstab, fun latest hlast =>
    partitionPoint_eq_takeWhile _ _ (hstab latest hlast)⟩

/-- Witness for C3: a two-event single-process log `[new(0,1), extend]`. -/
theorem c3_witness :
    (([MatrixClock.mk 0 [[1]], MatrixClock.mk 0 [[2]]].getD 0 default).diag <
      ([MatrixClock.mk 0 [[1]], MatrixClock.mk 0 [[2]]].getD 1 default).diag) ∧
    partitionPoint (fun c => c.gc (MatrixClock.mk 0 [[2]]))
        [MatrixClock.mk 0 [[1]], MatrixClock.mk 0 [[2]]] =
      ([MatrixClock.mk 0 [[1]], MatrixClock.mk 0 [[2]]].takeWhile
        (fun c => c.gc (MatrixClock.mk 0 [[2]]))).length := by
  have h := c3_stability_monotone 0 1
    [MatrixClock.mk 0 [[1]], MatrixClock.mk 0 [[2]]] (by decide) (by decide)
    (List.chain'_cons.2 ⟨Or.inl rfl, List.chain'_singleton _⟩)
  exact ⟨h.1 0 1 (by decide) (by decide), h.2.2 (MatrixClock.mk 0 [[2]]) rfl⟩

/-- C7: the claim states that `events()` returns all currently buffered
event snapshots, in generation order, for both process types — but
`GCProcess::events` returns only `events.as_slices().0`, the contiguous
front slice of the `VecDeque` ring buffer. At the reachable state `c7final`
(five appends, a `gc()` that evicts four events and advances the ring head,
then four more appends that wrap around the 8-slot ring), five events are
buffered but `events()` returns only the first four: the wrapped-around
suffix is dropped. -/
theorem c7_gcprocess_events_drops_wrapped_suffix :
    c7mid.gc.1 = c7evs.take 4 ∧
    c7final.events.buf = c7evs.drop 4 ∧
    c7final.events.buf.length = 5 ∧
    c7final.eventsFn = (c7evs.drop 4).take 4 ∧
    c7final.eventsFn ≠ c7final.events.buf := by
  decide

set_option maxRecDepth 4000 in
theorem step_pcA_wait : ∀ s : PState, s.pcA = .wait → ∀ s2 ∈ nexts s,
    s2.pcA = .wait ∨ s2.pcA = .held := by decide

set_option maxRecDepth 4000 in
theorem step_pcA_setT : ∀ s : PState, s.pcA = .setT → ∀ s2 ∈ nexts s,
    s2.pcA = .setT ∨ s2.pcA = .wait := by decide

set_option maxRecDepth 4000 in
theorem step_aturn_mono : ∀ s : PState, s.pcA = .wait →
    s.fl.a_turn = true → ∀ s2 ∈ nexts s, s2.fl.a_turn = true := by decide

set_option maxRecDepth 4000 in
theorem afn_wait_cases : ∀ s : PState, s.pcA = .wait →
    (aFn s).pcA = .held ∨
    (s.fl.b_wants = true ∧ s.fl.a_turn = false ∧ aFn s = s) := by decide

set_option maxRecDepth 4000 in
theorem step_pcB_setT : ∀ s : PState, s.pcB = .setT → ∀ s2 ∈ nexts s,
    s2.pcB = .setT ∨ s2.fl.a_turn = true := by decide

set_option maxRecDepth 4000 in
theorem bfn_setT_aturn : ∀ s : PState, s.pcB = .setT →
    (bFn s).fl.a_turn = true := by decide

set_option maxRecDepth 4000 in
theorem step_pcB_idle : ∀ s : PState, s.pcB = .idle → ∀ s2 ∈ nexts s,
    s2.pcB = .idle ∨ s2.pcB = .setT := by decide

set_option maxRecDepth 4000 in
theorem step_pcB_held : ∀ s : PState, s.pcB = .held → ∀ s2 ∈ nexts s,
    s2.pcB = .held ∨ s2.pcB = .idle := by decide

set_option maxRecDepth 4000 in
theorem pinv_bwants_idle : ∀ s : PState, Pinv s = true → s.pcB = .idle →
    s.fl.b_wants = false := by decide

set_option maxRecDepth 4000 in
theorem bfn_wait_enters : ∀ s : PState, s.pcB = .wait →
    s.fl.a_turn = false → (bFn s).pcB = .held := by decide

set_option maxRecDepth 4000 in
theorem step_window_inv : ∀ s : PState, Pinv s = true → s.pcB = .wait →
    (s.pcA = .idle ∨ s.pcA = .setT ∨
      (s.pcA = .wait ∧ s.fl.a_turn = false)) →
    ∀ s2 ∈ nexts s, s2.pcB = .wait →
    (s2.pcA = .idle ∨ s2.pcA = .setT ∨
      (s2.pcA = .wait ∧ s2.fl.a_turn = false)) := by decide

theorem trace_reach (tr : Nat → PState)
    (hstep : ∀ t, PStep (tr t) (tr (t + 1)) ∨ tr (t + 1) = tr t)
    (hreach : PReach (tr 0)) : ∀ t, PReach (tr t) := by
  intro t
  induction t with
  | zero => exact hreach
  | succ t ih =>
    rcases hstep t with hs | hs
    · exact PReach.step ih hs
    · rw [hs]; exact ih

theorem starvation_from_wait (tr : Nat → PState)
    (hstep : ∀ t, PStep (tr t) (tr (t + 1)) ∨ tr (t + 1) = tr t)
    (hfA : ∀ t, ∃ u, t ≤ u ∧ tr (u + 1) = aFn (tr u))
    (hfB : ∀ t, ∃ u, t ≤ u ∧ tr (u + 1) = bFn (tr u))
    (hrel : ∀ t, (tr t).pcB = .held → ∃ u, t ≤ u ∧ (tr u).pcB ≠ .held)
    (hreach : PReach (tr 0)) (t0 : Nat) (h0 : (tr t0).pcA = .wait) :
    ∃ u, t0 ≤ u ∧ (tr u).pcA = .held := by
  by_contra hcon
  push_neg at hcon
  have hwait : ∀ u, t0 ≤ u → (tr u).pcA = .wait := by
    intro u hu
    induction u, hu using Nat.le_induction with
    | base => exact h0
    | succ u hu ih =>
      rcases hstep u with hs | hs
      · rcases step_pcA_wait _ ih _ hs with h | h
        · exact h
        · exact absurd h (hcon (u + 1) (by omega))
      · rw [hs]; exact ih
  have haturn : ∀ u, t0 ≤ u → (tr u).fl.a_turn = false := by
    intro u hu
    by_contra hb
    have hbt : (tr u).fl.a_turn = true := by
      cases h : (tr u).fl.a_turn
      · exact absurd h hb
      · rfl
    have hmono : ∀ w, u ≤ w → (tr w).fl.a_turn = true := by
      intro w hw
      induction w, hw using Nat.le_induction with
      | base => exact hbt
      | succ w hw ih =>
        rcases hstep w with hs | hs
        · exact step_aturn_mono _ (hwait w (by omega)) ih _ hs
        · rw [hs]; exact ih
    obtain ⟨v, huv, hA⟩ := hfA u
    rcases afn_wait_cases (tr v) (hwait v (by omega)) with h | ⟨-, hf, -⟩
    · rw [← hA] at h
      exact absurd h (hcon (v + 1) (by omega))
    · rw [hmono v huv] at hf
      exact absurd hf (by simp)
  have hbw : ∀ t, t0 ≤ t → ∃ u, t ≤ u ∧ (tr u).fl.b_wants = true := by
    intro t ht
    obtain ⟨v, htv, hA⟩ := hfA t
    rcases afn_wait_cases (tr v) (hwait v (by omega)) with h | ⟨hbwants, -, -⟩
    · rw [← hA] at h
      exact absurd h (hcon (v + 1) (by omega))
    · exact ⟨v, htv, hbwants⟩
  have hnosetT : ∀ u, t0 ≤ u → (tr u).pcB ≠ .setT := by
    intro u hu hset
    have hstay : ∀ w, u ≤ w → (tr w).pcB = .setT := by
      intro w hw
      induction w, hw using Nat.le_induction with
      | base => exact hset
      | succ w hw ih =>
        rcases hstep w with hs | hs
        · rcases step_pcB_setT _ ih _ hs with h | h
          · exact h
          · rw [haturn (w + 1) (by omega)] at h
            exact absurd h (by simp)
        · rw [hs]; exact ih
    obtain ⟨v, huv, hB⟩ := hfB u
    have hat := bfn_setT_aturn (tr v) (hstay v huv)
    rw [← hB] at hat
    rw [haturn (v + 1) (by omega)] at hat
    exact absurd hat (by simp)
  have hnoidle : ∀ u, t0 ≤ u → (tr u).pcB ≠ .idle := by
    intro u hu hid
    have hstay : ∀ w, u ≤ w → (tr w).pcB = .idle := by
      intro w hw
      induction w, hw using Nat.le_induction with
      | base => exact hid
      | succ w hw ih =>
        rcases hstep w with hs | hs
        · rcases step_pcB_idle _ ih _ hs with h | h
          · exact h
          · exact absurd h (hnosetT (w + 1) (by omega))
        · rw [hs]; exact ih
    obtain ⟨v, huv, hbv⟩ := hbw u hu
    have hfalse := pinv_bwants_idle (tr v)
      (pinv_of_reach _ (trace_reach tr hstep hreach v)) (hstay v huv)
    rw [hbv] at hfalse
    exact absurd hfalse (by simp)
  have hnoheld : ∀ u, t0 ≤ u → (tr u).pcB ≠ .held := by
    intro u hu hh
    have hstay : ∀ w, u ≤ w → (tr w).pcB = .held := by
      intro w hw
      induction w, hw using Nat.le_induction with
      | base => exact hh
      | succ w hw ih =>
        rcases hstep w with hs | hs
        · rcases step_pcB_held _ ih _ hs with h | h
          · exact h
          · exact absurd h (hnoidle (w + 1) (by omega))
        · rw [hs]; exact ih
    obtain ⟨v, huv, hne⟩ := hrel u hh
    exact hne (hstay v huv)
  obtain ⟨v, hv, hB⟩ := hfB t0
  have hBwait : (tr v).pcB = .wait := by
    cases h : (tr v).pcB
    · exact absurd h (hnoidle v (by omega))
    · exact absurd h (hnosetT v (by omega))
    · rfl
    · exact absurd h (hnoheld v (by omega))
  have hheld := bfn_wait_enters (tr v) hBwait (haturn v (by omega))
  rw [← hB] at hheld
  exact (hnoheld (v + 1) (by omega)) hheld

set_option maxRecDepth 4000 in
theorem afn_setT_wait : ∀ s : PState, s.pcA = .setT →
    (aFn s).pcA = .wait := by decide

theorem window_no_overtake (tr : Nat → PState)
    (hstep : ∀ t, PStep (tr t) (tr (t + 1)) ∨ tr (t + 1) = tr t)
    (hreach : PReach (tr 0)) (t1 t2 : Nat) (h12 : t1 ≤ t2)
    (hw : ∀ u, t1 ≤ u → u ≤ t2 → (tr u).pcB = .wait)
    (hidle : (tr t1).pcA = .idle) : (tr t2).pcA ≠ .held := by
  have hJ : ∀ u, t1 ≤ u → u ≤ t2 →
      ((tr u).pcA = .idle ∨ (tr u).pcA = .setT ∨
        ((tr u).pcA = .wait ∧ (tr u).fl.a_turn = false)) := by
    intro u hu1
    induction u, hu1 using Nat.le_induction with
    | base => exact fun _ => Or.inl hidle
    | succ u hu ih =>
      intro hu2
      have hJu := ih (by omega)
      rcases hstep u with hs | hs
      · exact step_window_inv _
          (pinv_of_reach _ (trace_reach tr hstep hreach u))
          (hw u hu (by omega)) hJu _ hs (hw (u + 1) (by omega) hu2)
      · rw [hs]; exact hJu
  intro hh
  rcases hJ t2 h12 (Nat.le_refl t2) with h | h | ⟨h, -⟩ <;> rw [h] at hh <;>
    exact absurd hh (by decide)

theorem starvation_from_pending (tr : Nat → PState)
    (hstep : ∀ t, PStep (tr t) (tr (t + 1)) ∨ tr (t + 1) = tr t)
    (hfA : ∀ t, ∃ u, t ≤ u ∧ tr (u + 1) = aFn (tr u))
    (hfB : ∀ t, ∃ u, t ≤ u ∧ tr (u + 1) = bFn (tr u))
    (hrel : ∀ t, (tr t).pcB = .held → ∃ u, t ≤ u ∧ (tr u).pcB ≠ .held)
    (hreach : PReach (tr 0)) (t0 : Nat)
    (h0 : (tr t0).pcA = .setT ∨ (tr t0).pcA = .wait) :
    ∃ u, t0 ≤ u ∧ (tr u).pcA = .held := by
  rcases h0 with h0 | h0
  · have hpre : ∀ u, t0 ≤ u →
        (tr u).pcA = .setT ∨ ∃ v, t0 ≤ v ∧ (tr v).pcA = .wait := by
      intro u hu
      induction u, hu using Nat.le_induction with
      | base => exact Or.inl h0
      | succ u hu ih =>
        rcases ih with hset | hv
        · rcases hstep u with hs | hs
          · rcases step_pcA_setT _ hset _ hs with h | h
            · exact Or.inl h
            · exact Or.inr ⟨u + 1, by omega, h⟩
          · rw [hs]; exact Or.inl hset
        · exact Or.inr hv
    obtain ⟨v, hv, hA⟩ := hfA t0
    rcases hpre v hv with hset | ⟨w, hw, hwa⟩
    · have hwv : (tr (v + 1)).pcA = .wait := by
        rw [hA]
        exact afn_setT_wait (tr v) hset
      obtain ⟨u, hu, hheld⟩ :=
        starvation_from_wait tr hstep hfA hfB hrel hreach (v + 1) hwv
      exact ⟨u, by omega, hheld⟩
    · obtain ⟨u, hu, hheld⟩ :=
        starvation_from_wait tr hstep hfA hfB hrel hreach w hwa
      exact ⟨u, by omega, hheld⟩
  · exact starvation_from_wait tr hstep hfA hfB hrel hreach t0 h0

set_option maxRecDepth 4000 in
theorem step_pcB_wait : ∀ s : PState, s.pcB = .wait → ∀ s2 ∈ nexts s,
    s2.pcB = .wait ∨ s2.pcB = .held := by decide

set_option maxRecDepth 4000 in
theorem step_aturn_mono_false : ∀ s : PState, s.pcB = .wait →
    s.fl.a_turn = false → ∀ s2 ∈ nexts s, s2.fl.a_turn = false := by decide

set_option maxRecDepth 4000 in
theorem bfn_wait_cases : ∀ s : PState, s.pcB = .wait →
    (bFn s).pcB = .held ∨
    (s.fl.a_wants = true ∧ s.fl.a_turn = true ∧ bFn s = s) := by decide

set_option maxRecDepth 4000 in
theorem step_pcA_setT_turn : ∀ s : PState, s.pcA = .setT → ∀ s2 ∈ nexts s,
    s2.pcA = .setT ∨ s2.fl.a_turn = false := by decide

set_option maxRecDepth 4000 in
theorem afn_setT_aturn : ∀ s : PState, s.pcA = .setT →
    (aFn s).fl.a_turn = false := by decide

set_option maxRecDepth 4000 in
theorem step_pcA_idle : ∀ s : PState, s.pcA = .idle → ∀ s2 ∈ nexts s,
    s2.pcA = .idle ∨ s2.pcA = .setT := by decide

set_option maxRecDepth 4000 in
theorem pinv_awants_idle : ∀ s : PState, Pinv s = true → s.pcA = .idle →
    s.fl.a_wants = false := by decide

set_option maxRecDepth 4000 in
theorem step_pcA_held : ∀ s : PState, s.pcA = .held → ∀ s2 ∈ nexts s,
    s2.pcA = .held ∨ s2.pcA = .idle := by decide

set_option maxRecDepth 4000 in
theorem afn_wait_enters : ∀ s : PState, s.pcA = .wait →
    s.fl.a_turn = true → (aFn s).pcA = .held := by decide

set_option maxRecDepth 4000 in
theorem bfn_setT_wait : ∀ s : PState, s.pcB = .setT →
    (bFn s).pcB = .wait := by decide

set_option maxRecDepth 4000 in
theorem step_pcB_setT_pc : ∀ s : PState, s.pcB = .setT → ∀ s2 ∈ nexts s,
    s2.pcB = .setT ∨ s2.pcB = .wait := by decide

theorem starvation_from_waitB (tr : Nat → PState)
    (hstep : ∀ t, PStep (tr t) (tr (t + 1)) ∨ tr (t + 1) = tr t)
    (hfA : ∀ t, ∃ u, t ≤ u ∧ tr (u + 1) = aFn (tr u))
    (hfB : ∀ t, ∃ u, t ≤ u ∧ tr (u + 1) = bFn (tr u))
    (hrelA : ∀ t, (tr t).pcA = .held → ∃ u, t ≤ u ∧ (tr u).pcA ≠ .held)
    (hreach : PReach (tr 0)) (t0 : Nat) (h0 : (tr t0).pcB = .wait) :
    ∃ u, t0 ≤ u ∧ (tr u).pcB = .held := by
  by_contra hcon
  push_neg at hcon
  have hwait : ∀ u, t0 ≤ u → (tr u).pcB = .wait := by
    intro u hu
    induction u, hu using Nat.le_induction with
    | base => exact h0
    | succ u hu ih =>
      rcases hstep u with hs | hs
      · rcases step_pcB_wait _ ih _ hs with h | h
        · exact h
        · exact absurd h (hcon (u + 1) (by omega))
      · rw [hs]; exact ih
  have haturn : ∀ u, t0 ≤ u → (tr u).fl.a_turn = true := by
    intro u hu
    by_contra hb
    have hbt : (tr u).fl.a_turn = false := by
      cases h : (tr u).fl.a_turn
      · rfl
      · exact absurd h hb
    have hmono : ∀ w, u ≤ w → (tr w).fl.a_turn = false := by
      intro w hw
      induction w, hw using Nat.le_induction with
      | base => exact hbt
      | succ w hw ih =>
        rcases hstep w with hs | hs
        · exact step_aturn_mono_false _ (hwait w (by omega)) ih _ hs
        · rw [hs]; exact ih
    obtain ⟨v, huv, hB⟩ := hfB u
    rcases bfn_wait_cases (tr v) (hwait v (by omega)) with h | ⟨-, hf, -⟩
    · rw [← hB] at h
      exact absurd h (hcon (v + 1) (by omega))
    · rw [hmono v huv] at hf
      exact absurd hf (by simp)
  have haw : ∀ t, t0 ≤ t → ∃ u, t ≤ u ∧ (tr u).fl.a_wants = true := by
    intro t ht
    obtain ⟨v, htv, hB⟩ := hfB t
    rcases bfn_wait_cases (tr v) (hwait v (by omega)) with h | ⟨hawants, -, -⟩
    · rw [← hB] at h
      exact absurd h (hcon (v + 1) (by omega))
    · exact ⟨v, htv, hawants⟩
  have hnosetT : ∀ u, t0 ≤ u → (tr u).pcA ≠ .setT := by
    intro u hu hset
    have hstay : ∀ w, u ≤ w → (tr w).pcA = .setT := by
      intro w hw
      induction w, hw using Nat.le_induction with
      | base => exact hset
      | succ w hw ih =>
        rcases hstep w with hs | hs
        · rcases step_pcA_setT_turn _ ih _ hs with h | h
          · exact h
          · rw [haturn (w + 1) (by omega)] at h
            exact absurd h (by simp)
        · rw [hs]; exact ih
    obtain ⟨v, huv, hA⟩ := hfA u
    have hat := afn_setT_aturn (tr v) (hstay v huv)
    rw [← hA] at hat
    rw [haturn (v + 1) (by omega)] at hat
    exact absurd hat (by simp)
  have hnoidle : ∀ u, t0 ≤ u → (tr u).pcA ≠ .idle := by
    intro u hu hid
    have hstay : ∀ w, u ≤ w → (tr w).pcA = .idle := by
      intro w hw
      induction w, hw using Nat.le_induction with
      | base => exact hid
      | succ w hw ih =>
        rcases hstep w with hs | hs
        · rcases step_pcA_idle _ ih _ hs with h | h
          · exact h
          · exact absurd h (hnosetT (w + 1) (by omega))
        · rw [hs]; exact ih
    obtain ⟨v, huv, hav⟩ := haw u hu
    have hfalse := pinv_awants_idle (tr v)
      (pinv_of_reach _ (trace_reach tr hstep hreach v)) (hstay v huv)
    rw [hav] at hfalse
    exact absurd hfalse (by simp)
  have hnoheld : ∀ u, t0 ≤ u → (tr u).pcA ≠ .held := by
    intro u hu hh
    have hstay : ∀ w, u ≤ w → (tr w).pcA = .held := by
      intro w hw
      induction w, hw using Nat.le_induction with
      | base => exact hh
      | succ w hw ih =>
        rcases hstep w with hs | hs
        · rcases step_pcA_held _ ih _ hs with h | h
          · exact h
          · exact absurd h (hnoidle (w + 1) (by omega))
        · rw [hs]; exact ih
    obtain ⟨v, huv, hne⟩ := hrelA u hh
    exact hne (hstay v huv)
  obtain ⟨v, hv, hA⟩ := hfA t0
  have hAwait : (tr v).pcA = .wait := by
    cases h : (tr v).pcA
    · exact absurd h (hnoidle v (by omega))
    · exact absurd h (hnosetT v (by omega))
    · rfl
    · exact absurd h (hnoheld v (by omega))
  have hheld := afn_wait_enters (tr v) hAwait (haturn v (by omega))
  rw [← hA] at hheld
  exact (hnoheld (v + 1) (by omega)) hheld

theorem starvation_from_pendingB (tr : Nat → PState)
    (hstep : ∀ t, PStep (tr t) (tr (t + 1)) ∨ tr (t + 1) = tr t)
    (hfA : ∀ t, ∃ u, t ≤ u ∧ tr (u + 1) = aFn (tr u))
    (hfB : ∀ t, ∃ u, t ≤ u ∧ tr (u + 1) = bFn (tr u))
    (hrelA : ∀ t, (tr t).pcA = .held → ∃ u, t ≤ u ∧ (tr u).pcA ≠ .held)
    (hreach : PReach (tr 0)) (t0 : Nat)
    (h0 : (tr t0).pcB = .setT ∨ (tr t0).pcB = .wait) :
    ∃ u, t0 ≤ u ∧ (tr u).pcB = .held := by
  rcases h0 with h0 | h0
  · have hpre : ∀ u, t0 ≤ u →
        (tr u).pcB = .setT ∨ ∃ v, t0 ≤ v ∧ (tr v).pcB = .wait := by
      intro u hu
      induction u, hu using Nat.le_induction with
      | base => exact Or.inl h0
      | succ u hu ih =>
        rcases ih with hset | hv
        · rcases hstep u with hs | hs
          · rcases step_pcB_setT_pc _ hset _ hs with h | h
            · exact Or.inl h
            · exact Or.inr ⟨u + 1, by omega, h⟩
          · rw [hs]; exact Or.inl hset
        · exact Or.inr hv
    obtain ⟨v, hv, hB⟩ := hfB t0
    rcases hpre v hv with hset | ⟨w, hw, hwa⟩
    · have hwv : (tr (v + 1)).pcB = .wait := by
        rw [hB]
        exact bfn_setT_wait (tr v) hset
      obtain ⟨u, hu, hheld⟩ :=
        starvation_from_waitB tr hstep hfA hfB hrelA hreach (v + 1) hwv
      exact ⟨u, by omega, hheld⟩
    · obtain ⟨u, hu, hheld⟩ :=
        starvation_from_waitB tr hstep hfA hfB hrelA hreach w hwa
      exact ⟨u, by omega, hheld⟩
  · exact starvation_from_waitB tr hstep hfA hfB hrelA hreach t0 h0

/-- C5: under a scheduler that eventually runs every ready thread (each role
takes a step infinitely often) and with neither role holding the lock
forever, every pending `acquire()` eventually returns, for both roles: from
any time at which a role is inside `acquire` (between its first store and
its loop exit), that role later reaches `held`. In particular, in the
release/re-attempt scenario — B's acquire pending throughout an interval at
whose start A is at `idle` (A has released and may re-attempt) — A does not
reach `held` by the end of the interval, and B's pending acquire does
complete: B eventually holds the lock. -/
theorem c5_starvation_freedom (tr : Nat → PState)
    (hstep : ∀ t, PStep (tr t) (tr (t + 1)) ∨ tr (t + 1) = tr t)
    (hfA : ∀ t, ∃ u, t ≤ u ∧ tr (u + 1) = aFn (tr u))
    (hfB : ∀ t, ∃ u, t ≤ u ∧ tr (u + 1) = bFn (tr u))
    (hrelA : ∀ t, (tr t).pcA = .held → ∃ u, t ≤ u ∧ (tr u).pcA ≠ .held)
    (hrelB : ∀ t, (tr t).pcB = .held → ∃ u, t ≤ u ∧ (tr u).pcB ≠ .held)
    (hreach : PReach (tr 0)) :
    (∀ t, (tr t).pcA = .setT ∨ (tr t).pcA = .wait →
      ∃ u, t ≤ u ∧ (tr u).pcA = .held) ∧
    (∀ t, (tr t).pcB = .setT ∨ (tr t).pcB = .wait →
      ∃ u, t ≤ u ∧ (tr u).pcB = .held) ∧
    (∀ t1 t2, t1 ≤ t2 → (∀ u, t1 ≤ u → u ≤ t2 → (tr u).pcB = .wait) →
      (tr t1).pcA = .idle →
      (tr t2).pcA ≠ .held ∧ ∃ v, t1 ≤ v ∧ (tr v).pcB = .held) :=
  ⟨fun t h0 => starvation_from_pending tr hstep hfA hfB hrelB hreach t h0,
   fun t h0 => starvation_from_pendingB tr hstep hfA hfB hrelA hreach t h0,
   fun t1 t2 h12 hw hidle =>
     ⟨window_no_overtake tr hstep hreach t1 t2 h12 hw hidle,
      starvation_from_pendingB tr hstep hfA hfB hrelA hreach t1
        (Or.inr (hw t1 (Nat.le_refl t1) h12))⟩⟩

theorem c5tr_ge (t : Nat) (h : 8 ≤ t) :
    c5tr t = ⟨.idle, .idle, ⟨false, false, false⟩⟩ := by
  unfold c5tr
  rw [if_neg (by omega)]

/-- Witness for C5: on the concrete fair trace `c5tr`, A's acquire pending
from time 4 eventually completes, B's acquire pending from time 2 eventually
completes, and on B's spin window [2,4] (with A at `idle` at time 2) A is
not at `held` at time 4 while B does reach `held`. -/
theorem c5_witness :
    (∃ u, 4 ≤ u ∧ (c5tr u).pcA = .held) ∧
    (∃ u, 2 ≤ u ∧ (c5tr u).pcB = .held) ∧
    ((c5tr 4).pcA ≠ .held ∧ ∃ v, 2 ≤ v ∧ (c5tr v).pcB = .held) := by
  have hstep : ∀ t, PStep (c5tr t) (c5tr (t + 1)) ∨ c5tr (t + 1) = c5tr t := by
    intro t
    by_cases ht : t < 8
    · interval_cases t
      · exact Or.inl (by decide)
      · exact Or.inl (by decide)
      · exact Or.inl (by decide)
      · exact Or.inl (by decide)
      · exact Or.inl (by decide)
      · exact Or.inl (by decide)
      · exact Or.inl (by decide)
      · exact Or.inl (by decide)
    · right
      rw [c5tr_ge t (by omega), c5tr_ge (t + 1) (by omega)]
  have hfA : ∀ t, ∃ u, t ≤ u ∧ c5tr (u + 1) = aFn (c5tr u) := by
    intro t
    refine ⟨t + 8, by omega, ?_⟩
    rw [c5tr_ge (t + 8) (by omega), c5tr_ge (t + 8 + 1) (by omega)]
    decide
  have hfB : ∀ t, ∃ u, t ≤ u ∧ c5tr (u + 1) = bFn (c5tr u) := by
    intro t
    refine ⟨t + 8, by omega, ?_⟩
    rw [c5tr_ge (t + 8) (by omega), c5tr_ge (t + 8 + 1) (by omega)]
    decide
  have hrelA : ∀ t, (c5tr t).pcA = .held →
      ∃ u, t ≤ u ∧ (c5tr u).pcA ≠ .held := by
    intro t h
    by_cases ht : t < 8
    · interval_cases t
      · exact absurd h (by decide)
      · exact absurd h (by decide)
      · exact absurd h (by decide)
      · exact absurd h (by decide)
      · exact absurd h (by decide)
      · exact absurd h (by decide)
      · exact absurd h (by decide)
      · exact ⟨8, by omega, by rw [c5tr_ge 8 (by omega)]; decide⟩
    · rw [c5tr_ge t (by omega)] at h
      exact absurd h (by decide)
  have hrelB : ∀ t, (c5tr t).pcB = .held →
      ∃ u, t ≤ u ∧ (c5tr u).pcB ≠ .held := by
    intro t h
    by_cases ht : t < 8
    · interval_cases t
      · exact absurd h (by decide)
      · exact absurd h (by decide)
      · exact absurd h (by decide)
      · exact absurd h (by decide)
      · exact absurd h (by decide)
      · exact ⟨6, by omega, by decide⟩
      · exact absurd h (by decide)
      · exact absurd h (by decide)
    · rw [c5tr_ge t (by omega)] at h
      exact absurd h (by decide)
  have h := c5_starvation_freedom c5tr hstep hfA hfB hrelA hrelB PReach.init
  refine ⟨h.1 4 (Or.inr (by decide)), h.2.1 2 (Or.inr (by decide)), ?_⟩
  refine h.2.2 2 4 (by omega) ?_ (by decide)
  intro u h1 h2
  interval_cases u
  · decide
  · decide
  · decide
